import Mathlib

/-!
# The transcript validator of cf-openapi (`validator/main.go`)

A shallow embedding of `main.go`: the transcript records (`Request`, `Response`,
`RequestResponse`), the two reconstruction functions (`createHTTPRequest`,
`createHTTPResponse`) and the validation loop of `main` with its two counters.

The Go standard library is not part of the repository.  What `main.go` calls from it is
handled in one of two ways:

* `url.Parse`, `(*url.URL).String`, `http.StatusText` and the rendering and reading of a
  `float64` by `encoding/json` are fields of `StdLib`; theorems quantify over every
  `StdLib`.
* `http.NewRequest`, `http.Header.Set` (with `textproto.CanonicalMIMEHeaderKey`) and
  `json.Marshal` and `json.Unmarshal` on the values of an `interface{}` are written out
  below, following the library source.

Text is modelled at the level of Unicode characters: a Lean `String` stands for the Go
string holding its UTF-8 encoding.  A Go `map[string]T` is modelled by the list of its
entries in the order in which a `range` loop visits them; Go leaves that order
unspecified, so statements about maps are made for every such list.
-/

namespace CfOpenapi

/-! ## Data model -/

/-- Value held by a `Body interface{}` field after `json.Unmarshal`: `nil`, `bool`,
`float64` (the type `F`), `string`, `[]interface{}` or `map[string]interface{}`.
JSON `null` and a missing `body` key both decode to `nil`, the constructor `null`. -/
inductive JSONValue (F : Type) where
  | null
  | bool (b : Bool)
  | number (x : F)
  | string (s : String)
  | array (xs : List (JSONValue F))
  | object (kvs : List (String × JSONValue F))

/-- Go test `v != nil` on an `interface{}` holding a decoded JSON value, negated. -/
def JSONValue.isNil {F : Type} : JSONValue F → Bool
  | .null => true
  | _ => false

/-- Record `Request` of main.go (lines 18-23). -/
structure Request (F : Type) where
  Method : String
  Path : String
  Headers : List (String × String)
  Body : JSONValue F

/-- Record `Response` of main.go (lines 26-30). -/
structure Response (F : Type) where
  Status : Int
  Headers : List (String × String)
  Body : JSONValue F

/-- Record `RequestResponse` of main.go (lines 33-37). -/
structure RequestResponse (F : Type) where
  Timestamp : String
  Request : Request F
  Response : Response F

/-- Library functions used by main.go whose internals are left open.
`formatFloat x = none` stands for the `UnsupportedValueError` that `encoding/json`
raises on NaN and on the infinities; `parseFloat` reads the text of a JSON number. -/
structure StdLib (F U : Type) where
  urlParse : String → Except String U
  urlString : U → String
  formatFloat : F → Option String
  parseFloat : String → Option F
  statusText : Int → String

/-! ## `net/http`: header collection and request construction -/

/-- Symbols of the HTTP token alphabet besides letters and digits
(`httpguts.isTokenTable`, also `textproto.validHeaderFieldByte`). -/
def tokenSymbols : List Char :=
  ['!', '#', '$', '%', '&', '\x27', '*', '+', '-', '.', '^', '_', '\x60', '|', '~']

/-- Function `httpguts.IsTokenRune`: ASCII letters, digits and the token symbols. -/
def isTokenRune (c : Char) : Bool :=
  c.isAlphanum || tokenSymbols.contains c

/-- Function `http.validMethod`: a non-empty string of token characters. -/
def validMethod (method : String) : Bool :=
  !method.data.isEmpty && method.data.all isTokenRune

/-- Second loop of `textproto.canonicalMIMEHeaderKey`: upper case for the first letter
and for a letter after a dash, lower case elsewhere. -/
def canonicalizeChars : Bool → List Char → List Char
  | _, [] => []
  | upper, c :: cs =>
    let c1 := if upper && c.isLower then c.toUpper
              else if !upper && c.isUpper then c.toLower
              else c
    c1 :: canonicalizeChars (c1 == '-') cs

/-- Function `textproto.CanonicalMIMEHeaderKey`: a key containing a byte outside the token
alphabet is returned unchanged, any other key is canonicalized. -/
def CanonicalMIMEHeaderKey (s : String) : String :=
  if s.data.all isTokenRune then String.mk (canonicalizeChars true s.data) else s

/-- An `http.Header` (`map[string][]string`), given by its lookup operation. -/
@[ext]
structure Header where
  values : String → Option (List String)

/-- The empty header, `make(http.Header)`. -/
def Header.empty : Header := ⟨fun _ => none⟩

/-- Function `http.Header.Set`: `h[CanonicalMIMEHeaderKey(key)] = []string{value}`. -/
def Header.Set (h : Header) (key value : String) : Header :=
  ⟨fun k => if k = CanonicalMIMEHeaderKey key then some [value] else h.values k⟩

/-- Function `http.Header.Values`: the values stored under the canonical form of `key`. -/
def Header.Values (h : Header) (key : String) : Option (List String) :=
  h.values (CanonicalMIMEHeaderKey key)

/-- The loop `for key, value := range headers { msg.Header.Set(key, value) }` of
main.go (lines 162-164 and 189-191); `headers` lists the map in iteration order. -/
def setHeaders (h : Header) (headers : List (String × String)) : Header :=
  headers.foldl (fun acc kv => acc.Set kv.1 kv.2) h

/-- The fields of `http.Request` that main.go sets or that the claims read.  `Body` is
`none` for a nil reader and `some s` for a reader that yields `s`. -/
structure HTTPRequest (U : Type) where
  Method : String
  URL : U
  Header : Header
  Body : Option String

/-- The fields of `http.Response` set by `createHTTPResponse`. -/
structure HTTPResponse (U : Type) where
  Status : String
  StatusCode : Int
  Header : Header
  Body : Option String
  Request : HTTPRequest U

/-- Function `http.NewRequest`: an empty method means GET, a method that is not a token is
rejected, the URL text is parsed, and the request starts with an empty header. -/
def NewRequest {F U : Type} (lib : StdLib F U) (method url : String) (body : Option String) :
    Except String (HTTPRequest U) :=
  let method := if method = "" then "GET" else method
  if !validMethod method then
    .error ("net/http: invalid method " ++ method)
  else
    match lib.urlParse url with
    | .error err => .error err
    | .ok u => .ok { Method := method, URL := u, Header := Header.empty, Body := body }

/-! ## `encoding/json`: rendering a decoded value -/

/-- Table `hex` of encoding/json. -/
def hexDigit (n : Nat) : Char :=
  ['0', '1', '2', '3', '4', '5', '6', '7', '8', '9', 'a', 'b', 'c', 'd', 'e', 'f'].getD n '0'

/-- What `appendString` of encoding/json (with `escapeHTML` on, as in `json.Marshal`)
writes for one character: quote and backslash get a backslash, five control characters
a short escape, the other control characters and the three HTML characters the form
u00XX, the two Unicode line separators u202X, everything else itself.  (Releases of Go
before 1.22 write backspace and form feed as u0008 and u000c, which denote the same
characters.) -/
def escapeChar (c : Char) : List Char :=
  if c = '\x5c' ∨ c = '\x22' then ['\x5c', c]
  else if c = '\x08' then ['\x5c', 'b']
  else if c = '\x0c' then ['\x5c', 'f']
  else if c = '\n' then ['\x5c', 'n']
  else if c = '\r' then ['\x5c', 'r']
  else if c = '\t' then ['\x5c', 't']
  else if c.toNat < 0x20 ∨ c = '<' ∨ c = '>' ∨ c = '&' then
    ['\x5c', 'u', '0', '0', hexDigit (c.toNat / 16), hexDigit (c.toNat % 16)]
  else if c.toNat = 0x2028 ∨ c.toNat = 0x2029 then
    ['\x5c', 'u', '2', '0', '2', hexDigit (c.toNat % 16)]
  else [c]

/-- The escaped characters of a string, without the surrounding quotes. -/
def escapeChars : List Char → List Char
  | [] => []
  | c :: cs => escapeChar c ++ escapeChars cs

/-- Function `appendString` of encoding/json: the quoted, escaped string. -/
def appendString (s : List Char) : List Char :=
  '\x22' :: (escapeChars s ++ ['\x22'])

/-- Items separated by commas. -/
def joinComma : List (List Char) → List Char
  | [] => []
  | [p] => p
  | p :: q :: rest => p ++ ',' :: joinComma (q :: rest)

/-- Order of two map keys as encoding/json sorts them: lexicographic on the bytes of
the UTF-8 encoding, which is the lexicographic order on code points. -/
def keyLE : List Char → List Char → Bool
  | [], _ => true
  | _ :: _, [] => false
  | a :: as, b :: bs => a.toNat < b.toNat || (a.toNat == b.toNat && keyLE as bs)

/-- Map entries in ascending key order. -/
def sortByKey {α : Type} (entries : List (String × α)) : List (String × α) :=
  List.insertionSort (fun a b => keyLE a.1.data b.1.data = true) entries

/-- One rendered map entry: the quoted key, a colon, the rendered value. -/
def encodeMember (p : String × List Char) : List Char :=
  appendString p.1.data ++ ':' :: p.2

mutual
/-- The encoder of encoding/json on a decoded value: `null`, `true`, `false`, the
number as rendered by `formatFloat`, the quoted string, the bracketed elements, the
braced entries in ascending key order.  `none` when a number cannot be rendered. -/
def encodeValue {F : Type} (formatFloat : F → Option String) :
    JSONValue F → Option (List Char)
  | .null => some ['n', 'u', 'l', 'l']
  | .bool true => some ['t', 'r', 'u', 'e']
  | .bool false => some ['f', 'a', 'l', 's', 'e']
  | .number x => (formatFloat x).map String.data
  | .string s => some (appendString s.data)
  | .array xs =>
    (encodeElems formatFloat xs).map fun parts => '[' :: (joinComma parts ++ [']'])
  | .object kvs =>
    (encodeEntries formatFloat kvs).map fun parts =>
      '\x7b' :: (joinComma ((sortByKey parts).map encodeMember) ++ ['\x7d'])
/-- The rendered elements of an array. -/
def encodeElems {F : Type} (formatFloat : F → Option String) :
    List (JSONValue F) → Option (List (List Char))
  | [] => some []
  | x :: xs =>
    match encodeValue formatFloat x, encodeElems formatFloat xs with
    | some p, some ps => some (p :: ps)
    | _, _ => none
/-- The entries of a map, each with its rendered value. -/
def encodeEntries {F : Type} (formatFloat : F → Option String) :
    List (String × JSONValue F) → Option (List (String × List Char))
  | [] => some []
  | (k, x) :: kvs =>
    match encodeValue formatFloat x, encodeEntries formatFloat kvs with
    | some p, some ps => some ((k, p) :: ps)
    | _, _ => none
end

/-- Function `json.Marshal` on a decoded value. -/
def Marshal {F : Type} (formatFloat : F → Option String) (v : JSONValue F) :
    Except String String :=
  match encodeValue formatFloat v with
  | none => .error "json: unsupported value"
  | some cs => .ok (String.mk cs)

/-! ## `encoding/json`: decoding a text -/

/-- White space between the tokens of a JSON text. -/
def isSpace (c : Char) : Bool :=
  c == ' ' || c == '\t' || c == '\r' || c == '\n'

/-- The input without its leading white space. -/
def skipSpace : List Char → List Char
  | [] => []
  | c :: cs => if isSpace c then skipSpace cs else c :: cs

/-- Value of a hexadecimal digit. -/
def hexValue (c : Char) : Option Nat :=
  if '0' ≤ c ∧ c ≤ '9' then some (c.toNat - 48)
  else if 'a' ≤ c ∧ c ≤ 'f' then some (c.toNat - 87)
  else if 'A' ≤ c ∧ c ≤ 'F' then some (c.toNat - 55)
  else none

/-- Function `getu4` of encoding/json: the number written by `u` and four hexadecimal digits. -/
def getu4 : List Char → Option (Nat × List Char)
  | 'u' :: a :: b :: c :: d :: rest =>
    match hexValue a, hexValue b, hexValue c, hexValue d with
    | some x, some y, some z, some w => some (((x * 16 + y) * 16 + z) * 16 + w, rest)
    | _, _, _, _ => none
  | _ => none

/-- The character written by an escape sequence, the backslash already consumed, and
the rest of the input (`unquote` of encoding/json).  A pair of surrogates gives one
character, a lone surrogate the replacement character. -/
def readEscape (cs : List Char) : Option (Char × List Char) :=
  match cs with
  | [] => none
  | e :: rest =>
    if e = '\x22' ∨ e = '\x5c' ∨ e = '/' then some (e, rest)
    else if e = 'b' then some ('\x08', rest)
    else if e = 'f' then some ('\x0c', rest)
    else if e = 'n' then some ('\n', rest)
    else if e = 'r' then some ('\r', rest)
    else if e = 't' then some ('\t', rest)
    else if e = 'u' then
      match getu4 (e :: rest) with
      | none => none
      | some (n, rest1) =>
        if 0xD800 ≤ n ∧ n < 0xE000 then
          match rest1 with
          | '\x5c' :: rest2 =>
            match getu4 rest2 with
            | some (m, rest3) =>
              if n < 0xDC00 ∧ 0xDC00 ≤ m ∧ m < 0xE000 then
                some (Char.ofNat (0x10000 + (n - 0xD800) * 0x400 + (m - 0xDC00)), rest3)
              else some (Char.ofNat 0xFFFD, rest1)
            | none => some (Char.ofNat 0xFFFD, rest1)
          | _ => some (Char.ofNat 0xFFFD, rest1)
        else some (Char.ofNat n, rest1)
    else none

/-- The characters of a string literal after its opening quote, up to the closing
quote, and the rest of the input.  A raw control character is an error. -/
def parseStringTail : Nat → List Char → Option (List Char × List Char)
  | 0, _ => none
  | _ + 1, [] => none
  | fuel + 1, c :: rest =>
    if c = '\x22' then some ([], rest)
    else if c = '\x5c' then
      match readEscape rest with
      | none => none
      | some (d, rest1) =>
        match parseStringTail fuel rest1 with
        | none => none
        | some (s, rest2) => some (d :: s, rest2)
    else if c.toNat < 0x20 then none
    else
      match parseStringTail fuel rest with
      | none => none
      | some (s, rest1) => some (c :: s, rest1)

/-- The characters that occur in a JSON number. -/
def isNumberChar (c : Char) : Bool :=
  c.isDigit || c == '-' || c == '+' || c == '.' || c == 'e' || c == 'E'

/-- The input after the given literal, if it starts with it. -/
def expectLiteral (lit : List Char) (cs : List Char) : Option (List Char) :=
  if lit.isPrefixOf cs then some (cs.drop lit.length) else none

/-- Assignment `m[k] = x` seen from the end of the text: the entries `later` were
written after this one, so an entry for `k` among them overrides it. -/
def assignFirst {α : Type} (k : String) (x : α) (later : List (String × α)) :
    List (String × α) :=
  if later.any (fun p => p.1 == k) then later else (k, x) :: later

mutual
/-- The decoder of encoding/json into an `interface{}`: one value at the head of the
input, and the rest of the input. -/
def parseValue {F : Type} (parseFloat : String → Option F) :
    Nat → List Char → Option (JSONValue F × List Char)
  | 0, _ => none
  | fuel + 1, cs =>
    match skipSpace cs with
    | [] => none
    | c :: rest =>
      if c = 'n' then (expectLiteral ['u', 'l', 'l'] rest).map fun r => (.null, r)
      else if c = 't' then (expectLiteral ['r', 'u', 'e'] rest).map fun r => (.bool true, r)
      else if c = 'f' then
        (expectLiteral ['a', 'l', 's', 'e'] rest).map fun r => (.bool false, r)
      else if c = '\x22' then
        (parseStringTail fuel rest).map fun p => (.string (String.mk p.1), p.2)
      else if c = '[' then
        match skipSpace rest with
        | ']' :: rest1 => some (.array [], rest1)
        | _ => (parseElems parseFloat fuel rest).map fun p => (.array p.1, p.2)
      else if c = '\x7b' then
        match skipSpace rest with
        | '\x7d' :: rest1 => some (.object [], rest1)
        | _ => (parseMembers parseFloat fuel rest).map fun p => (.object p.1, p.2)
      else if isNumberChar c then
        (parseFloat (String.mk ((c :: rest).takeWhile isNumberChar))).map fun x =>
          (.number x, (c :: rest).dropWhile isNumberChar)
      else none
/-- The elements of an array after the opening bracket, up to the closing bracket. -/
def parseElems {F : Type} (parseFloat : String → Option F) :
    Nat → List Char → Option (List (JSONValue F) × List Char)
  | 0, _ => none
  | fuel + 1, cs =>
    match parseValue parseFloat fuel cs with
    | none => none
    | some (x, rest) =>
      match skipSpace rest with
      | ',' :: rest1 => (parseElems parseFloat fuel rest1).map fun p => (x :: p.1, p.2)
      | ']' :: rest1 => some ([x], rest1)
      | _ => none
/-- The entries of a map after the opening brace, up to the closing brace. -/
def parseMembers {F : Type} (parseFloat : String → Option F) :
    Nat → List Char → Option (List (String × JSONValue F) × List Char)
  | 0, _ => none
  | fuel + 1, cs =>
    match skipSpace cs with
    | '\x22' :: rest =>
      match parseStringTail fuel rest with
      | none => none
      | some (k, rest1) =>
        match skipSpace rest1 with
        | ':' :: rest2 =>
          match parseValue parseFloat fuel rest2 with
          | none => none
          | some (x, rest3) =>
            match skipSpace rest3 with
            | ',' :: rest4 =>
              (parseMembers parseFloat fuel rest4).map fun p =>
                (assignFirst (String.mk k) x p.1, p.2)
            | '\x7d' :: rest4 => some ([(String.mk k, x)], rest4)
            | _ => none
        | _ => none
    | _ => none
end

/-- Function `json.Unmarshal` into an `interface{}`: the text holds one value and white
space.  The limit that the library puts on the nesting depth (10000) is left out. -/
def Unmarshal {F : Type} (parseFloat : String → Option F) (data : String) :
    Except String (JSONValue F) :=
  match parseValue parseFloat (data.length + 1) data.data with
  | none => .error "invalid JSON"
  | some (v, rest) =>
    match skipSpace rest with
    | [] => .ok v
    | _ => .error "invalid character after top-level value"

/-! ## Reconstruction (main.go, lines 138-194) -/

/-- Function `createHTTPRequest` of main.go. -/
def createHTTPRequest {F U : Type} (lib : StdLib F U) (req : Request F) :
    Except String (HTTPRequest U) :=
  match lib.urlParse req.Path with
  | .error err => .error ("invalid path: " ++ err)
  | .ok parsedURL =>
    let body : Except String (Option String) :=
      if req.Body.isNil then .ok none
      else match Marshal lib.formatFloat req.Body with
        | .error err => .error ("failed to marshal request body: " ++ err)
        | .ok bodyBytes => .ok (some bodyBytes)
    match body with
    | .error err => .error err
    | .ok body =>
      match NewRequest lib req.Method (lib.urlString parsedURL) body with
      | .error err => .error ("failed to create HTTP request: " ++ err)
      | .ok httpReq => .ok { httpReq with Header := setHeaders httpReq.Header req.Headers }

/-- Function `createHTTPResponse` of main.go. -/
def createHTTPResponse {F U : Type} (lib : StdLib F U) (resp : Response F)
    (req : HTTPRequest U) : Except String (HTTPResponse U) :=
  let body : Except String (Option String) :=
    if resp.Body.isNil then .ok none
    else match Marshal lib.formatFloat resp.Body with
      | .error err => .error ("failed to marshal response body: " ++ err)
      | .ok bodyBytes => .ok (some bodyBytes)
  match body with
  | .error err => .error err
  | .ok body =>
    .ok { Status := toString resp.Status ++ " " ++ lib.statusText resp.Status
          StatusCode := resp.Status
          Header := setHeaders Header.empty resp.Headers
          Body := body
          Request := req }

/-! ## The validation loop (main.go, lines 83-135) -/

/-- The external validator: its two entry points, each returning the `bool` that
main.go discards and the list of conformance errors, and the text of an error. -/
structure Validator (E U : Type) where
  ValidateHttpRequest : HTTPRequest U → Bool × List E
  ValidateHttpResponse : HTTPRequest U → HTTPResponse U → Bool × List E
  Error : E → String

/-- The variables `validCount` and `invalidCount` of `main`, and the lines logged.  The
counters are Go `int`s; they never exceed `len(requests)`, so they do not overflow. -/
structure Tally where
  validCount : Nat
  invalidCount : Nat
  log : List String

/-- One iteration of the loop of `main` (lines 88-130) for the entry at index `i`. -/
def loopBody {F U E : Type} (lib : StdLib F U) (v : Validator E U) (st : Tally) (i : Nat)
    (reqResp : RequestResponse F) : Tally :=
  match createHTTPRequest lib reqResp.Request with
  | .error err =>
    { st with log := st.log ++ ["Error creating HTTP request " ++ toString (i + 1) ++ ": " ++ err] }
  | .ok httpReq =>
    let reqErrors := (v.ValidateHttpRequest httpReq).2
    let isValid := true
    let isValid := if reqErrors.length > 0 then false else isValid
    let log1 :=
      if reqErrors.length > 0 then
        st.log ++ ("Request " ++ toString (i + 1) ++ " validation failed:")
          :: reqErrors.map fun e => "  - " ++ v.Error e
      else st.log
    match createHTTPResponse lib reqResp.Response httpReq with
    | .error err =>
      { st with log := log1 ++ ["Error creating HTTP response " ++ toString (i + 1) ++ ": " ++ err] }
    | .ok httpResp =>
      let respErrors := (v.ValidateHttpResponse httpReq httpResp).2
      let isValid := if respErrors.length > 0 then false else isValid
      let log2 :=
        if respErrors.length > 0 then
          log1 ++ ("Response " ++ toString (i + 1) ++ " validation failed:")
            :: respErrors.map fun e => "  - " ++ v.Error e
        else log1
      if isValid then
        { validCount := st.validCount + 1, invalidCount := st.invalidCount, log := log2 }
      else
        { validCount := st.validCount, invalidCount := st.invalidCount + 1, log := log2 }

/-- The loop `for i, reqResp := range requests` of `main`, from index `i` on. -/
def validateAll {F U E : Type} (lib : StdLib F U) (v : Validator E U) :
    Nat → List (RequestResponse F) → Tally → Tally
  | _, [], st => st
  | i, reqResp :: rest, st => validateAll lib v (i + 1) rest (loopBody lib v st i reqResp)

/-- What `main` reports: the three numbers of the summary and the whole log. -/
structure Summary where
  total : Nat
  validCount : Nat
  invalidCount : Nat
  log : List String

/-- Function `main` of main.go from the decoded transcript on (lines 83-135). -/
def main {F U E : Type} (lib : StdLib F U) (v : Validator E U)
    (requests : List (RequestResponse F)) : Summary :=
  let st := validateAll lib v 0 requests
    { validCount := 0, invalidCount := 0
      log := ["Loaded " ++ toString requests.length ++ " requests for validation"] }
  { total := requests.length
    validCount := st.validCount
    invalidCount := st.invalidCount
    log := st.log ++
      ["\nValidation Summary:",
       "Total requests: " ++ toString requests.length,
       "Valid requests: " ++ toString st.validCount,
       "Invalid requests: " ++ toString st.invalidCount] }

/-! ## Classification of entries -/

/-- The entry reaches neither counter: `createHTTPRequest` fails, or it succeeds and
`createHTTPResponse` fails (the two `continue` statements of the loop). -/
def skipped {F U : Type} (lib : StdLib F U) (reqResp : RequestResponse F) : Bool :=
  match createHTTPRequest lib reqResp.Request with
  | .error _ => true
  | .ok httpReq =>
    match createHTTPResponse lib reqResp.Response httpReq with
    | .error _ => true
    | .ok _ => false

/-- Both messages are reconstructed and the validator returns no error for either. -/
def conforms {F U E : Type} (lib : StdLib F U) (v : Validator E U)
    (reqResp : RequestResponse F) : Bool :=
  match createHTTPRequest lib reqResp.Request with
  | .error _ => false
  | .ok httpReq =>
    match createHTTPResponse lib reqResp.Response httpReq with
    | .error _ => false
    | .ok httpResp =>
      (v.ValidateHttpRequest httpReq).2.isEmpty && (v.ValidateHttpResponse httpReq httpResp).2.isEmpty

/-- Both messages are reconstructed and the validator returns an error for the request
or for the response. -/
def violates {F U E : Type} (lib : StdLib F U) (v : Validator E U)
    (reqResp : RequestResponse F) : Bool :=
  match createHTTPRequest lib reqResp.Request with
  | .error _ => false
  | .ok httpReq =>
    match createHTTPResponse lib reqResp.Response httpReq with
    | .error _ => false
    | .ok httpResp =>
      !((v.ValidateHttpRequest httpReq).2.isEmpty && (v.ValidateHttpResponse httpReq httpResp).2.isEmpty)

/-! ## Auxiliary notions used in the statements -/

/-- The value that the header-setting loop leaves under the canonical key `k`: that of
the last entry of `headers` whose key canonicalizes to `k`, if there is one. -/
def lastValue : List (String × String) → String → Option String
  | [], _ => none
  | kv :: rest, k =>
    match lastValue rest k with
    | some value => some value
    | none => if CanonicalMIMEHeaderKey kv.1 = k then some kv.2 else none

/-- The method that `http.NewRequest` stores: GET for the empty string. -/
def methodOrGET (method : String) : String :=
  if method = "" then "GET" else method

/-- The body step shared by the two reconstruction functions: no reader for a nil
body, else a reader over the marshalled bytes, or no result when marshalling fails. -/
def bodyReader {F : Type} (formatFloat : F → Option String) (body : JSONValue F) :
    Option (Option String) :=
  if body.isNil then some none
  else match Marshal formatFloat body with
    | .error _ => none
    | .ok bodyBytes => some (some bodyBytes)

mutual
/-- Every number inside the value can be rendered: none is NaN or infinite.  This holds
of every value that `json.Unmarshal` produces. -/
def JSONValue.finite {F : Type} (formatFloat : F → Option String) : JSONValue F → Bool
  | .null => true
  | .bool _ => true
  | .number x => (formatFloat x).isSome
  | .string _ => true
  | .array xs => finiteElems formatFloat xs
  | .object kvs => finiteEntries formatFloat kvs
/-- The predicate `JSONValue.finite` for the elements of an array. -/
def finiteElems {F : Type} (formatFloat : F → Option String) : List (JSONValue F) → Bool
  | [] => true
  | x :: xs => x.finite formatFloat && finiteElems formatFloat xs
/-- The predicate `JSONValue.finite` for the values of a map. -/
def finiteEntries {F : Type} (formatFloat : F → Option String) :
    List (String × JSONValue F) → Bool
  | [] => true
  | (_, x) :: kvs => x.finite formatFloat && finiteEntries formatFloat kvs
end

mutual
/-- The keys of every map inside the value are pairwise distinct, as in any Go map. -/
def JSONValue.distinctKeys {F : Type} : JSONValue F → Prop
  | .null => True
  | .bool _ => True
  | .number _ => True
  | .string _ => True
  | .array xs => distinctKeysElems xs
  | .object kvs => (kvs.map Prod.fst).Nodup ∧ distinctKeysEntries kvs
/-- The predicate `JSONValue.distinctKeys` for the elements of an array. -/
def distinctKeysElems {F : Type} : List (JSONValue F) → Prop
  | [] => True
  | x :: xs => x.distinctKeys ∧ distinctKeysElems xs
/-- The predicate `JSONValue.distinctKeys` for the values of a map. -/
def distinctKeysEntries {F : Type} : List (String × JSONValue F) → Prop
  | [] => True
  | (_, x) :: kvs => x.distinctKeys ∧ distinctKeysEntries kvs
end

mutual
/-- The value with the entries of every map listed in ascending key order. -/
def JSONValue.sortKeys {F : Type} : JSONValue F → JSONValue F
  | .null => .null
  | .bool b => .bool b
  | .number x => .number x
  | .string s => .string s
  | .array xs => .array (sortKeysElems xs)
  | .object kvs => .object (sortByKey (sortKeysEntries kvs))
/-- The function `JSONValue.sortKeys` on the elements of an array. -/
def sortKeysElems {F : Type} : List (JSONValue F) → List (JSONValue F)
  | [] => []
  | x :: xs => x.sortKeys :: sortKeysElems xs
/-- The function `JSONValue.sortKeys` on the values of a map, the entries left in place. -/
def sortKeysEntries {F : Type} : List (String × JSONValue F) → List (String × JSONValue F)
  | [] => []
  | (k, x) :: kvs => (k, x.sortKeys) :: sortKeysEntries kvs
end

/-- The value stored under `k`, if any. -/
def lookupKey {α : Type} (k : String) : List (String × α) → Option α
  | [] => none
  | (k1, x) :: rest => if k1 = k then some x else lookupKey k rest

mutual
/-- Function `reflect.DeepEqual` on decoded values: equal scalars; arrays of the same length with
deeply equal elements; maps of the same size in which every key of the first is a key
of the second, with deeply equal values. -/
def DeepEqual {F : Type} : JSONValue F → JSONValue F → Prop
  | .null, b => b = .null
  | .bool a, b => b = .bool a
  | .number x, b => b = .number x
  | .string s, b => b = .string s
  | .array xs, b => ∃ ys, b = .array ys ∧ DeepEqualElems xs ys
  | .object kvs, b => ∃ lvs, b = .object lvs ∧ kvs.length = lvs.length ∧ DeepEqualEntries kvs lvs
/-- Elementwise deep equality of two arrays. -/
def DeepEqualElems {F : Type} : List (JSONValue F) → List (JSONValue F) → Prop
  | [], ys => ys = []
  | x :: xs, ys => ∃ y rest, ys = y :: rest ∧ DeepEqual x y ∧ DeepEqualElems xs rest
/-- Every entry of the first list has a deeply equal value under its key in `lvs`. -/
def DeepEqualEntries {F : Type} :
    List (String × JSONValue F) → List (String × JSONValue F) → Prop
  | [], _ => True
  | (k, x) :: kvs, lvs =>
    (∃ y, lookupKey k lvs = some y ∧ DeepEqual x y) ∧ DeepEqualEntries kvs lvs
end

/-- The value is an array or a map. -/
def JSONValue.isStructured {F : Type} : JSONValue F → Bool
  | .array _ => true
  | .object _ => true
  | _ => false

/-- A text made of number characters, at least one. -/
def NumberText (text : String) : Prop :=
  text.data ≠ [] ∧ ∀ c ∈ text.data, isNumberChar c = true

/-- The input goes on with something that is not part of a number. -/
def EndsNumber (tail : List Char) : Prop :=
  ∀ c rest, tail = c :: rest → isNumberChar c = false

/-- The text starts like a value and, followed by any input that does not go on with a
number character, is read back as `w`, which leaves that input. -/
def ParsesAs {F : Type} (parseFloat : String → Option F) (text : List Char)
    (w : JSONValue F) : Prop :=
  (∃ c cs, text = c :: cs ∧ isSpace c = false ∧ c ≠ ']')
  ∧ ∀ fuel tail, text.length ≤ fuel → EndsNumber tail →
      parseValue parseFloat fuel (text ++ tail) = some (w, tail)

/-- A rendered entry and a decoded entry with the same key, the text of the first being
read back as the value of the second. -/
def EntryParsesAs {F : Type} (parseFloat : String → Option F) (p : String × List Char)
    (q : String × JSONValue F) : Prop :=
  p.1 = q.1 ∧ ParsesAs parseFloat p.2 q.2

/-! ## A concrete library, for running the model -/

/-- Function `stringContainsCTLByte` of net/url. -/
def stringContainsCTLByte (s : List Char) : Bool :=
  s.any fun c => c.toNat < 0x20 || c.toNat == 0x7f

/-- The loop of `getScheme` of net/url from index `i` on, `cs` being `rawURL[i:]`. -/
def getSchemeFrom (rawURL : List Char) : Nat → List Char → Except String (List Char × List Char)
  | _, [] => .ok ([], rawURL)
  | i, c :: cs =>
    if c.isAlpha then getSchemeFrom rawURL (i + 1) cs
    else if c.isDigit || c == '+' || c == '-' || c == '.' then
      if i = 0 then .ok ([], rawURL) else getSchemeFrom rawURL (i + 1) cs
    else if c == ':' then
      if i = 0 then .error "missing protocol scheme" else .ok (rawURL.take i, cs)
    else .ok ([], rawURL)

/-- Function `getScheme` of net/url: the scheme and the rest, or an error for a leading colon. -/
def getScheme (rawURL : String) : Except String (String × String) :=
  match getSchemeFrom rawURL.data 0 rawURL.data with
  | .error err => .error err
  | .ok (scheme, rest) => .ok (String.mk scheme, String.mk rest)

/-- Value of a non-empty string of decimal digits. -/
def parseDecimal (cs : List Char) : Option Nat :=
  if cs.isEmpty then none
  else cs.foldl
    (fun acc c =>
      match acc with
      | none => none
      | some n => if c.isDigit then some (10 * n + (c.toNat - 48)) else none)
    (some 0)

/-- Value of a string of decimal digits, most significant first. -/
def decimalValue (cs : List Char) : Nat :=
  cs.foldl (fun n c => 10 * n + (c.toNat - 48)) 0

/-- An integer in decimal, with an optional minus sign; leading zeros are tolerated. -/
def parseInteger (text : String) : Option Int :=
  match text.data with
  | '-' :: cs => (parseDecimal cs).map fun n => -(n : Int)
  | cs => (parseDecimal cs).map fun n => (n : Int)

/-- A library instance on which the model can be run.  Its `urlParse` performs the first
two checks of `url.Parse` (no control character, `getScheme`) and accepts whatever
passes them, a URL being kept as its text; numbers are the integers, rendered in
decimal as encoding/json renders an integral `float64` below 1e21; four status codes
have their reason phrase.  On the paths used below it agrees with net/url: "/pets"
parses and prints back as "/pets", "://bad" is rejected. -/
def sampleLib : StdLib Int String where
  urlParse := fun rawURL =>
    if stringContainsCTLByte rawURL.data then
      .error ("parse \x22" ++ rawURL ++ "\x22: net/url: invalid control character in URL")
    else match getScheme rawURL with
      | .error err => .error ("parse \x22" ++ rawURL ++ "\x22: " ++ err)
      | .ok _ => .ok rawURL
  urlString := fun u => u
  formatFloat := fun n => some (toString n)
  parseFloat := parseInteger
  statusText := fun code =>
    if code = 200 then "OK"
    else if code = 201 then "Created"
    else if code = 404 then "Not Found"
    else if code = 500 then "Internal Server Error"
    else ""

/-- A validator that never reports an error. -/
def acceptAll : Validator Unit String where
  ValidateHttpRequest := fun _ => (true, [])
  ValidateHttpResponse := fun _ _ => (true, [])
  Error := fun _ => ""

/-- A validator that reports one error on every request and on every response. -/
def rejectAll : Validator Unit String where
  ValidateHttpRequest := fun _ => (false, [()])
  ValidateHttpResponse := fun _ _ => (false, [()])
  Error := fun _ => "nonconformant"

/-- The entry of the scenario of the specification: `GET /pets` answered by 200 and an
empty array. -/
def petsEntry : RequestResponse Int where
  Timestamp := "2024-01-01T00:00:00Z"
  Request := { Method := "GET", Path := "/pets", Headers := [], Body := .null }
  Response :=
    { Status := 200, Headers := [("Content-Type", "application/json")], Body := .array [] }

/-- An entry whose path is not a URI reference. -/
def badPathEntry : RequestResponse Int where
  Timestamp := "2024-01-01T00:00:01Z"
  Request := { Method := "GET", Path := "://bad", Headers := [], Body := .null }
  Response := { Status := 200, Headers := [], Body := .null }

/-- An entry whose request carries a structured body. -/
def postEntry : RequestResponse Int where
  Timestamp := "2024-01-01T00:00:02Z"
  Request :=
    { Method := "POST", Path := "/pets"
      Headers := [("content-type", "application/json")]
      Body := .object
        [("name", .string "Rex <3"), ("age", .number 7), ("owner", .null),
         ("tags", .array [.string "dog", .bool true, .array []])] }
  Response := { Status := 201, Headers := [], Body := .null }

/-! ## The counters of the loop -/

theorem skipped_or_conforms_or_violates {F U E : Type} (lib : StdLib F U) (v : Validator E U)
    (e : RequestResponse F) :
    (if skipped lib e then 1 else 0) + (if conforms lib v e then 1 else 0)
      + (if violates lib v e then 1 else 0) = 1 := by
  unfold skipped conforms violates
  rcases h1 : createHTTPRequest lib e.Request with err | httpReq
  · simp
  · rcases h2 : createHTTPResponse lib e.Response httpReq with err | httpResp
    · simp [h2]
    · rcases h3 : (v.ValidateHttpRequest httpReq).2.isEmpty
        <;> rcases h4 : (v.ValidateHttpResponse httpReq httpResp).2.isEmpty <;> simp [h2, h3, h4]

theorem loopBody_validCount {F U E : Type} (lib : StdLib F U) (v : Validator E U) (st : Tally)
    (i : Nat) (e : RequestResponse F) :
    (loopBody lib v st i e).validCount
      = st.validCount + (if conforms lib v e then 1 else 0) := by
  unfold loopBody conforms
  rcases h1 : createHTTPRequest lib e.Request with err | httpReq
  · simp
  · rcases h2 : createHTTPResponse lib e.Response httpReq with err | httpResp
    · simp [h2]
    · rcases h3 : (v.ValidateHttpRequest httpReq).2 with _ | ⟨a, l⟩
        <;> rcases h4 : (v.ValidateHttpResponse httpReq httpResp).2 with _ | ⟨b, m⟩
        <;> simp [h2, h3, h4]

theorem loopBody_invalidCount {F U E : Type} (lib : StdLib F U) (v : Validator E U)
    (st : Tally) (i : Nat) (e : RequestResponse F) :
    (loopBody lib v st i e).invalidCount
      = st.invalidCount + (if violates lib v e then 1 else 0) := by
  unfold loopBody violates
  rcases h1 : createHTTPRequest lib e.Request with err | httpReq
  · simp
  · rcases h2 : createHTTPResponse lib e.Response httpReq with err | httpResp
    · simp [h2]
    · rcases h3 : (v.ValidateHttpRequest httpReq).2 with _ | ⟨a, l⟩
        <;> rcases h4 : (v.ValidateHttpResponse httpReq httpResp).2 with _ | ⟨b, m⟩
        <;> simp [h2, h3, h4]

theorem validateAll_validCount {F U E : Type} (lib : StdLib F U) (v : Validator E U)
    (requests : List (RequestResponse F)) :
    ∀ (i : Nat) (st : Tally),
      (validateAll lib v i requests st).validCount
        = st.validCount + requests.countP (conforms lib v) := by
  induction requests with
  | nil => intro i st; simp [validateAll]
  | cons e rest ih =>
    intro i st
    rw [validateAll, ih, loopBody_validCount, List.countP_cons]
    omega

theorem validateAll_invalidCount {F U E : Type} (lib : StdLib F U) (v : Validator E U)
    (requests : List (RequestResponse F)) :
    ∀ (i : Nat) (st : Tally),
      (validateAll lib v i requests st).invalidCount
        = st.invalidCount + requests.countP (violates lib v) := by
  induction requests with
  | nil => intro i st; simp [validateAll]
  | cons e rest ih =>
    intro i st
    rw [validateAll, ih, loopBody_invalidCount, List.countP_cons]
    omega

theorem main_validCount {F U E : Type} (lib : StdLib F U) (v : Validator E U)
    (requests : List (RequestResponse F)) :
    (main lib v requests).validCount = requests.countP (conforms lib v) := by
  simp [main, validateAll_validCount]

theorem main_invalidCount {F U E : Type} (lib : StdLib F U) (v : Validator E U)
    (requests : List (RequestResponse F)) :
    (main lib v requests).invalidCount = requests.countP (violates lib v) := by
  simp [main, validateAll_invalidCount]

theorem count_partition {F U E : Type} (lib : StdLib F U) (v : Validator E U)
    (requests : List (RequestResponse F)) :
    requests.countP (skipped lib) + requests.countP (conforms lib v)
      + requests.countP (violates lib v) = requests.length := by
  induction requests with
  | nil => simp
  | cons e rest ih =>
    have h := skipped_or_conforms_or_violates lib v e
    simp only [List.countP_cons, List.length_cons]
    omega

theorem countP_skipped_eq_zero {F U : Type} (lib : StdLib F U)
    (requests : List (RequestResponse F)) :
    requests.countP (skipped lib) = 0 ↔ ∀ e ∈ requests, skipped lib e = false := by
  simp [List.countP_eq_zero]

/-! ## Claims about the counters -/

/-- C1: at the end of the loop of `main`, for every transcript, every library and every
validator, `validCount + invalidCount` is at most `len(requests)`, the reported total is
`len(requests)`, and the sum equals `len(requests)` exactly when no entry was skipped
because `createHTTPRequest` or `createHTTPResponse` returned an error. -/
theorem main_valid_plus_invalid_le_total {F U E : Type} (lib : StdLib F U)
    (v : Validator E U) (requests : List (RequestResponse F)) :
    (main lib v requests).validCount + (main lib v requests).invalidCount ≤ requests.length
    ∧ (main lib v requests).total = requests.length
    ∧ ((main lib v requests).validCount + (main lib v requests).invalidCount
          = requests.length
        ↔ ∀ e ∈ requests, skipped lib e = false) := by
  have hp := count_partition lib v requests
  rw [main_validCount, main_invalidCount, ← countP_skipped_eq_zero]
  refine ⟨by omega, rfl, ?_⟩
  constructor <;> intro h <;> omega

/-- C2: an entry whose request and response are both reconstructed increments exactly
one counter, `validCount` when both validations return no error and `invalidCount`
otherwise; the response is validated, and its errors are logged, also when the request
validation has returned errors; over a run `validCount` is the number of reconstructed
entries without any error and `invalidCount` the number of reconstructed entries with
at least one. -/
theorem reconstructed_entry_counted_once {F U E : Type} (lib : StdLib F U)
    (v : Validator E U) (requests : List (RequestResponse F)) :
    (∀ (st : Tally) (i : Nat) (e : RequestResponse F) (httpReq : HTTPRequest U)
        (httpResp : HTTPResponse U),
        createHTTPRequest lib e.Request = .ok httpReq →
        createHTTPResponse lib e.Response httpReq = .ok httpResp →
        ((v.ValidateHttpRequest httpReq).2 = []
            ∧ (v.ValidateHttpResponse httpReq httpResp).2 = [] →
          (loopBody lib v st i e).validCount = st.validCount + 1
            ∧ (loopBody lib v st i e).invalidCount = st.invalidCount)
        ∧ (¬ ((v.ValidateHttpRequest httpReq).2 = []
            ∧ (v.ValidateHttpResponse httpReq httpResp).2 = []) →
          (loopBody lib v st i e).validCount = st.validCount
            ∧ (loopBody lib v st i e).invalidCount = st.invalidCount + 1)
        ∧ ((v.ValidateHttpRequest httpReq).2 ≠ [] →
          ∀ err ∈ (v.ValidateHttpResponse httpReq httpResp).2,
            ("Response " ++ toString (i + 1) ++ " validation failed:")
                ∈ (loopBody lib v st i e).log
              ∧ ("  - " ++ v.Error err) ∈ (loopBody lib v st i e).log))
    ∧ (main lib v requests).validCount = requests.countP (conforms lib v)
    ∧ (main lib v requests).invalidCount = requests.countP (violates lib v)
    ∧ (∀ e ∈ requests, skipped lib e = false →
        (conforms lib v e = true ∧ violates lib v e = false)
          ∨ (conforms lib v e = false ∧ violates lib v e = true)) := by
  refine ⟨?_, main_validCount lib v requests, main_invalidCount lib v requests, ?_⟩
  · intro st i e httpReq httpResp h1 h2
    refine ⟨?_, ?_, ?_⟩
    · rintro ⟨h3, h4⟩
      rw [loopBody_validCount, loopBody_invalidCount]
      simp [conforms, violates, h1, h2, h3, h4]
    · intro h
      rw [loopBody_validCount, loopBody_invalidCount]
      have h5 : ((v.ValidateHttpRequest httpReq).2.isEmpty
          && (v.ValidateHttpResponse httpReq httpResp).2.isEmpty) = false := by
        rw [Bool.and_eq_false_iff]
        simp only [List.isEmpty_eq_false, ← List.isEmpty_iff]
        by_contra hc
        push_neg at hc
        exact h ⟨by simpa using hc.1, by simpa using hc.2⟩
      simp [conforms, violates, h1, h2, h5]
    · intro h3 err herr
      have h4 : 0 < (v.ValidateHttpResponse httpReq httpResp).2.length :=
        List.length_pos_of_mem herr
      simp only [loopBody, h1, h2, h4, if_true]
      split <;> simp [herr]
      · exact Or.inr (Or.inr ⟨err, herr, rfl⟩)
      · exact Or.inr (Or.inr ⟨err, herr, rfl⟩)
  · intro e _ hs
    have h := skipped_or_conforms_or_violates lib v e
    rw [hs] at h
    rcases hc : conforms lib v e <;> rcases hv : violates lib v e <;> simp [hc, hv] at h ⊢

/-- Witness of C2 on the scenario entry: it is reconstructed, a validator without
errors counts it valid, a validator with errors counts it invalid and logs the errors
of the response after those of the request. -/
theorem reconstructed_entry_counted_once_witness :
    (loopBody sampleLib acceptAll ⟨0, 0, []⟩ 0 petsEntry).validCount = 1
    ∧ (loopBody sampleLib rejectAll ⟨0, 0, []⟩ 0 petsEntry).invalidCount = 1
    ∧ "Response 1 validation failed:" ∈ (loopBody sampleLib rejectAll ⟨0, 0, []⟩ 0 petsEntry).log
    ∧ (main sampleLib rejectAll [petsEntry, badPathEntry]).invalidCount = 1 := by
  have h := reconstructed_entry_counted_once sampleLib rejectAll [petsEntry, badPathEntry]
  refine ⟨by decide, by decide, ?_, ?_⟩
  · exact ((h.1 ⟨0, 0, []⟩ 0 petsEntry _ _ rfl rfl).2.2 (by decide) () (by decide)).1
  · rw [h.2.2.1]; decide

/-- C3: an entry whose reconstruction fails (in `createHTTPRequest`, or in
`createHTTPResponse` after the request has been validated) changes neither counter,
whatever the state and the index at which the loop meets it; the counters at the end of
the run are those of the transcript without that entry, and the reported total is
`len(requests)`, the entry included. -/
theorem skipped_entry_changes_no_counter {F U E : Type} (lib : StdLib F U)
    (v : Validator E U) (before after : List (RequestResponse F)) (e : RequestResponse F)
    (h : skipped lib e = true) :
    (∀ (st : Tally) (i : Nat),
        (loopBody lib v st i e).validCount = st.validCount
        ∧ (loopBody lib v st i e).invalidCount = st.invalidCount
        ∧ validateAll lib v i (e :: after) st
            = validateAll lib v (i + 1) after (loopBody lib v st i e))
    ∧ (main lib v (before ++ e :: after)).validCount
        = (main lib v (before ++ after)).validCount
    ∧ (main lib v (before ++ e :: after)).invalidCount
        = (main lib v (before ++ after)).invalidCount
    ∧ (main lib v (before ++ e :: after)).total = (before ++ e :: after).length
    ∧ (main lib v (before ++ e :: after)).total = (main lib v (before ++ after)).total + 1 := by
  have hp := skipped_or_conforms_or_violates lib v e
  have hc : conforms lib v e = false := by
    rcases hc : conforms lib v e with _ | _
    · rfl
    · simp only [h, hc, if_true] at hp
      omega
  have hv : violates lib v e = false := by
    rcases hv : violates lib v e with _ | _
    · rfl
    · simp only [h, hv, if_true] at hp
      omega
  refine ⟨?_, ?_, ?_, rfl, ?_⟩
  · intro st i
    rw [loopBody_validCount, loopBody_invalidCount, hc, hv]
    exact ⟨by simp, by simp, rfl⟩
  · simp [main_validCount, List.countP_cons, hc]
  · simp [main_invalidCount, List.countP_cons, hv]
  · simp [main]
    omega

/-- Witness of C3 with the path "://bad" between two copies of the scenario entry. -/
theorem skipped_entry_changes_no_counter_witness :
    skipped sampleLib badPathEntry = true
    ∧ (main sampleLib acceptAll ([petsEntry] ++ badPathEntry :: [petsEntry])).validCount
        = (main sampleLib acceptAll ([petsEntry] ++ [petsEntry])).validCount
    ∧ (main sampleLib acceptAll ([petsEntry] ++ badPathEntry :: [petsEntry])).total = 3 :=
  have h := skipped_entry_changes_no_counter sampleLib acceptAll [petsEntry] [petsEntry]
    badPathEntry (by decide)
  ⟨by decide, h.2.1, h.2.2.2.1⟩

/-- C4 as stated fails: with a validator that never returns an error, the transcript
made of the one entry with path "://bad" ends with `validCount = 0` while
`len(requests) = 1`. -/
theorem zero_errors_not_all_valid_counterexample :
    (∀ r, (acceptAll.ValidateHttpRequest r).2 = [])
    ∧ (∀ r p, (acceptAll.ValidateHttpResponse r p).2 = [])
    ∧ (main sampleLib acceptAll [badPathEntry]).invalidCount = 0
    ∧ (main sampleLib acceptAll [badPathEntry]).validCount = 0
    ∧ [badPathEntry].length = 1
    ∧ ¬ ((main sampleLib acceptAll [badPathEntry]).validCount = [badPathEntry].length) :=
  ⟨fun _ => rfl, fun _ _ => rfl, by decide, by decide, by decide, by decide⟩

/-- C4, amended: when the validator returns no error on any entry that is
reconstructed, the run ends with `invalidCount = 0` and with `validCount` equal to
`len(requests)` minus the number of skipped entries; so `validCount = len(requests)`
when no entry is skipped. -/
theorem zero_errors_all_reconstructed_valid {F U E : Type} (lib : StdLib F U)
    (v : Validator E U) (requests : List (RequestResponse F))
    (h : ∀ e ∈ requests, ∀ httpReq, createHTTPRequest lib e.Request = .ok httpReq →
      (v.ValidateHttpRequest httpReq).2 = []
      ∧ ∀ httpResp, createHTTPResponse lib e.Response httpReq = .ok httpResp →
          (v.ValidateHttpResponse httpReq httpResp).2 = []) :
    (main lib v requests).invalidCount = 0
    ∧ (main lib v requests).validCount + requests.countP (skipped lib) = requests.length
    ∧ ((∀ e ∈ requests, skipped lib e = false) →
        (main lib v requests).validCount = requests.length) := by
  have hp := count_partition lib v requests
  have hv : requests.countP (violates lib v) = 0 := by
    rw [List.countP_eq_zero]
    intro e he
    unfold violates
    rcases h1 : createHTTPRequest lib e.Request with err | httpReq
    · simp
    · rcases h2 : createHTTPResponse lib e.Response httpReq with err | httpResp
      · simp [h2]
      · have h3 := h e he httpReq h1
        simp [h2, h3.1, h3.2 httpResp h2]
  rw [main_validCount, main_invalidCount]
  refine ⟨hv, by omega, ?_⟩
  intro hs
  rw [← countP_skipped_eq_zero] at hs
  omega

/-- Witness of amended C4: the scenario entry followed by the entry with a bad path. -/
theorem zero_errors_all_reconstructed_valid_witness :
    (main sampleLib acceptAll [petsEntry, badPathEntry]).invalidCount = 0
    ∧ (main sampleLib acceptAll [petsEntry, badPathEntry]).validCount
        + [petsEntry, badPathEntry].countP (skipped sampleLib) = 2 :=
  have h := zero_errors_all_reconstructed_valid sampleLib acceptAll [petsEntry, badPathEntry]
    (fun _ _ _ _ => ⟨rfl, fun _ _ => rfl⟩)
  ⟨h.1, h.2.1⟩

/-! ## The header-setting loop -/

theorem setHeaders_cons (h : Header) (kv : String × String) (rest : List (String × String)) :
    setHeaders h (kv :: rest) = setHeaders (h.Set kv.1 kv.2) rest := rfl

theorem setHeaders_values (headers : List (String × String)) :
    ∀ (h : Header) (k : String),
      (setHeaders h headers).values k
        = match lastValue headers k with
          | some value => some [value]
          | none => h.values k := by
  induction headers with
  | nil => intro h k; rfl
  | cons kv rest ih =>
    intro h k
    rw [setHeaders_cons, ih, lastValue]
    rcases lastValue rest k with _ | value
    · by_cases hk : CanonicalMIMEHeaderKey kv.1 = k
      · simp [Header.Set, hk]
      · have hk2 : ¬ k = CanonicalMIMEHeaderKey kv.1 := fun hc => hk hc.symm
        simp [Header.Set, hk, hk2]
    · rfl

theorem lastValue_eq_none (headers : List (String × String)) (k : String) :
    lastValue headers k = none ↔ ∀ kv ∈ headers, CanonicalMIMEHeaderKey kv.1 ≠ k := by
  induction headers with
  | nil => simp [lastValue]
  | cons kv rest ih =>
    rw [lastValue]
    rcases hl : lastValue rest k with _ | value
    · rw [hl] at ih
      have ih2 := ih.mp rfl
      by_cases hk : CanonicalMIMEHeaderKey kv.1 = k
      · simp [hk]
      · simp only [hk, if_false, List.mem_cons, true_iff]
        rintro kv2 (rfl | hmem)
        · exact hk
        · exact ih2 kv2 hmem
    · rw [hl] at ih
      simp only [false_iff, reduceCtorEq] at ih ⊢
      intro hall
      exact ih fun kv2 hmem => hall kv2 (List.mem_cons_of_mem _ hmem)

theorem lastValue_mem (headers : List (String × String)) (k value : String)
    (h : lastValue headers k = some value) :
    ∃ kv ∈ headers, CanonicalMIMEHeaderKey kv.1 = k ∧ kv.2 = value := by
  induction headers with
  | nil => simp [lastValue] at h
  | cons kv rest ih =>
    rw [lastValue] at h
    rcases hl : lastValue rest k with _ | value2
    · rw [hl] at h
      by_cases hk : CanonicalMIMEHeaderKey kv.1 = k
      · simp only [hk, if_true, Option.some.injEq] at h
        exact ⟨kv, List.mem_cons_self _ _, hk, h⟩
      · simp [hk] at h
    · rw [hl] at h
      obtain ⟨kv2, hmem, hk, hv⟩ := ih (by rw [hl]; exact h)
      exact ⟨kv2, List.mem_cons_of_mem _ hmem, hk, hv⟩

theorem lastValue_of_mem_nodup (headers : List (String × String))
    (hnd : (headers.map fun kv => CanonicalMIMEHeaderKey kv.1).Nodup)
    (kv : String × String) (hmem : kv ∈ headers) :
    lastValue headers (CanonicalMIMEHeaderKey kv.1) = some kv.2 := by
  rcases hl : lastValue headers (CanonicalMIMEHeaderKey kv.1) with _ | value
  · exact absurd rfl ((lastValue_eq_none _ _).mp hl kv hmem)
  · obtain ⟨kv2, hmem2, hk, hv⟩ := lastValue_mem _ _ _ hl
    have heq : kv2 = kv :=
      List.inj_on_of_nodup_map hnd hmem2 hmem hk
    rw [← hv, heq]

theorem NewRequest_eq {F U : Type} (lib : StdLib F U) (method url : String)
    (body : Option String) :
    NewRequest lib method url body
      = if validMethod (methodOrGET method) then
          match lib.urlParse url with
          | .error err => .error err
          | .ok u =>
            .ok { Method := methodOrGET method, URL := u, Header := Header.empty, Body := body }
        else .error ("net/http: invalid method " ++ methodOrGET method) := by
  unfold NewRequest methodOrGET
  by_cases h : validMethod (if method = "" then "GET" else method) = true <;> simp [h]

theorem createHTTPRequest_eq_ok {F U : Type} (lib : StdLib F U) (req : Request F)
    (httpReq : HTTPRequest U) :
    createHTTPRequest lib req = .ok httpReq ↔
      ∃ parsedURL body u,
        lib.urlParse req.Path = .ok parsedURL
        ∧ bodyReader lib.formatFloat req.Body = some body
        ∧ validMethod (methodOrGET req.Method) = true
        ∧ lib.urlParse (lib.urlString parsedURL) = .ok u
        ∧ httpReq = { Method := methodOrGET req.Method, URL := u,
                      Header := setHeaders Header.empty req.Headers, Body := body } := by
  unfold createHTTPRequest bodyReader
  rcases h1 : lib.urlParse req.Path with e1 | parsedURL
  · simp
  · simp only [NewRequest_eq]
    rcases hnil : req.Body.isNil
    · rcases hm : Marshal lib.formatFloat req.Body with e2 | bytes
      · simp
      · by_cases hv : validMethod (methodOrGET req.Method) = true
        · rcases h2 : lib.urlParse (lib.urlString parsedURL) with e3 | u
          · simp [hv, h2]
          · simp [hv, h2]
            exact eq_comm
        · simp [hv]
    · by_cases hv : validMethod (methodOrGET req.Method) = true
      · rcases h2 : lib.urlParse (lib.urlString parsedURL) with e3 | u
        · simp [hv, h2]
        · simp [hv, h2]
          exact eq_comm
      · simp [hv]

theorem createHTTPResponse_eq_ok {F U : Type} (lib : StdLib F U) (resp : Response F)
    (req : HTTPRequest U) (httpResp : HTTPResponse U) :
    createHTTPResponse lib resp req = .ok httpResp ↔
      ∃ body,
        bodyReader lib.formatFloat resp.Body = some body
        ∧ httpResp = { Status := toString resp.Status ++ " " ++ lib.statusText resp.Status
                       StatusCode := resp.Status
                       Header := setHeaders Header.empty resp.Headers
                       Body := body
                       Request := req } := by
  unfold createHTTPResponse bodyReader
  rcases hnil : resp.Body.isNil
  · rcases hm : Marshal lib.formatFloat resp.Body with e2 | bytes
    · simp
    · simp [eq_comm]
  · simp [eq_comm]

theorem createHTTPRequest_Header {F U : Type} (lib : StdLib F U) (req : Request F)
    (httpReq : HTTPRequest U) (h : createHTTPRequest lib req = .ok httpReq) :
    httpReq.Header = setHeaders Header.empty req.Headers := by
  obtain ⟨_, _, _, _, _, _, _, rfl⟩ := (createHTTPRequest_eq_ok lib req httpReq).mp h
  rfl

theorem createHTTPResponse_Header {F U : Type} (lib : StdLib F U) (resp : Response F)
    (req : HTTPRequest U) (httpResp : HTTPResponse U)
    (h : createHTTPResponse lib resp req = .ok httpResp) :
    httpResp.Header = setHeaders Header.empty resp.Headers := by
  obtain ⟨_, _, rfl⟩ := (createHTTPResponse_eq_ok lib resp req httpResp).mp h
  rfl

theorem setHeaders_setHeaders (h : Header) (first second : List (String × String))
    (hperm : second.Perm first) :
    setHeaders (setHeaders h first) second = setHeaders h second := by
  apply Header.ext
  funext k
  rw [setHeaders_values, setHeaders_values second, setHeaders_values]
  rcases hl : lastValue second k with _ | value
  · have hnone : lastValue first k = none := by
      rw [lastValue_eq_none] at hl ⊢
      exact fun kv hmem => hl kv (hperm.mem_iff.mpr hmem)
    simp [hnone]
  · rfl

theorem setHeaders_perm_of_nodup (h : Header) (headers reordered : List (String × String))
    (hperm : reordered.Perm headers)
    (hnd : (headers.map fun kv => CanonicalMIMEHeaderKey kv.1).Nodup) :
    setHeaders h reordered = setHeaders h headers := by
  have hnd2 : (reordered.map fun kv => CanonicalMIMEHeaderKey kv.1).Nodup :=
    (hperm.map _).nodup_iff.mpr hnd
  apply Header.ext
  funext k
  rw [setHeaders_values, setHeaders_values]
  rcases hl : lastValue headers k with _ | value
  · have hnone : lastValue reordered k = none := by
      rw [lastValue_eq_none] at hl ⊢
      exact fun kv hmem => hl kv (hperm.mem_iff.mp hmem)
    simp [hnone]
  · obtain ⟨kv, hmem, hk, hv⟩ := lastValue_mem _ _ _ hl
    have h2 := lastValue_of_mem_nodup reordered hnd2 kv (hperm.mem_iff.mpr hmem)
    rw [hk, hv] at h2
    simp [h2]

theorem setHeaders_single_value (h : Header) (headers : List (String × String))
    (kv : String × String) (hmem : kv ∈ headers) :
    ∃ value, (setHeaders h headers).Values kv.1 = some [value]
      ∧ ∃ kv2 ∈ headers,
          CanonicalMIMEHeaderKey kv2.1 = CanonicalMIMEHeaderKey kv.1 ∧ kv2.2 = value := by
  rcases hl : lastValue headers (CanonicalMIMEHeaderKey kv.1) with _ | value
  · exact absurd rfl ((lastValue_eq_none _ _).mp hl kv hmem)
  · exact ⟨value, by simp [Header.Values, setHeaders_values, hl], lastValue_mem _ _ _ hl⟩

/-- C7 as stated fails: Go draws a new iteration order for every `range` loop, and for
the header map that gives `application/json` to `Content-Type` and `text/plain` to
`content-type` a first pass in one order leaves `application/json` under
`Content-Type`, while a second pass over the same map in the other order leaves
`text/plain`: two applications do not yield the header collection of one. -/
theorem setHeaders_replay_counterexample :
    [("Content-Type", "application/json"), ("content-type", "text/plain")].Perm
      [("content-type", "text/plain"), ("Content-Type", "application/json")]
    ∧ (setHeaders Header.empty
          [("content-type", "text/plain"), ("Content-Type", "application/json")]).Values
        "Content-Type" = some ["application/json"]
    ∧ (setHeaders
          (setHeaders Header.empty
            [("content-type", "text/plain"), ("Content-Type", "application/json")])
          [("Content-Type", "application/json"), ("content-type", "text/plain")]).Values
        "Content-Type" = some ["text/plain"]
    ∧ setHeaders
          (setHeaders Header.empty
            [("content-type", "text/plain"), ("Content-Type", "application/json")])
          [("Content-Type", "application/json"), ("content-type", "text/plain")]
        ≠ setHeaders Header.empty
          [("content-type", "text/plain"), ("Content-Type", "application/json")] := by
  have h1 : (setHeaders Header.empty
      [("content-type", "text/plain"), ("Content-Type", "application/json")]).Values
      "Content-Type" = some ["application/json"] := by decide
  have h2 : (setHeaders
      (setHeaders Header.empty
        [("content-type", "text/plain"), ("Content-Type", "application/json")])
      [("Content-Type", "application/json"), ("content-type", "text/plain")]).Values
      "Content-Type" = some ["text/plain"] := by decide
  refine ⟨by decide, h1, h2, ?_⟩
  intro heq
  rw [heq, h1] at h2
  exact absurd h2 (by decide)

/-- C7, amended: a second pass of the header-setting loop of `createHTTPRequest` and
`createHTTPResponse` over the same header map yields the header collection of the
first pass when it visits the map in the same order, and also, whatever its order,
when the keys of the map are pairwise distinct after canonicalization; in every case
it yields the collection that a single pass in the order of the second pass produces;
and after one pass as after two, every header name taken from the record holds exactly
one value, the value that the record gives to a key with the same canonical form. -/
theorem setHeaders_replay (h : Header) (headers replay : List (String × String))
    (hperm : replay.Perm headers) :
    setHeaders (setHeaders h headers) headers = setHeaders h headers
    ∧ ((headers.map fun kv => CanonicalMIMEHeaderKey kv.1).Nodup →
        setHeaders (setHeaders h headers) replay = setHeaders h headers)
    ∧ setHeaders (setHeaders h headers) replay = setHeaders h replay
    ∧ (∀ kv ∈ headers,
        (∃ value, (setHeaders h headers).Values kv.1 = some [value]
          ∧ ∃ kv2 ∈ headers,
              CanonicalMIMEHeaderKey kv2.1 = CanonicalMIMEHeaderKey kv.1 ∧ kv2.2 = value)
        ∧ ∃ value, (setHeaders (setHeaders h headers) replay).Values kv.1 = some [value]
          ∧ ∃ kv2 ∈ headers,
              CanonicalMIMEHeaderKey kv2.1 = CanonicalMIMEHeaderKey kv.1 ∧ kv2.2 = value) := by
  have htwice := setHeaders_setHeaders h headers replay hperm
  refine ⟨setHeaders_setHeaders h headers headers (List.Perm.refl _), ?_, htwice, ?_⟩
  · intro hnd
    rw [htwice]
    exact setHeaders_perm_of_nodup h headers replay hperm hnd
  · intro kv hmem
    refine ⟨setHeaders_single_value h headers kv hmem, ?_⟩
    rw [htwice]
    obtain ⟨value, hv, kv2, hmem2, hk, hval⟩ :=
      setHeaders_single_value h replay kv (hperm.mem_iff.mpr hmem)
    exact ⟨value, hv, kv2, hperm.mem_iff.mp hmem2, hk, hval⟩

/-- Witness of amended C7: three headers with distinct canonical names, replayed in the
reverse order; the second pass leaves the header collection of the first. -/
theorem setHeaders_replay_witness :
    [("x-request-id", "7"), ("Content-Type", "application/json"), ("accept", "*/*")].Perm
      [("accept", "*/*"), ("Content-Type", "application/json"), ("x-request-id", "7")]
    ∧ ([("accept", "*/*"), ("Content-Type", "application/json"), ("x-request-id", "7")].map
        fun kv => CanonicalMIMEHeaderKey kv.1).Nodup
    ∧ setHeaders
        (setHeaders Header.empty
          [("accept", "*/*"), ("Content-Type", "application/json"), ("x-request-id", "7")])
        [("x-request-id", "7"), ("Content-Type", "application/json"), ("accept", "*/*")]
      = setHeaders Header.empty
        [("accept", "*/*"), ("Content-Type", "application/json"), ("x-request-id", "7")] :=
  ⟨by decide, by decide,
    (setHeaders_replay Header.empty _ _ (by decide)).2.1 (by decide)⟩

/-- C10: when the keys of a header map are pairwise distinct after canonicalization,
the header-setting loop builds the same header collection in every iteration order,
each key holding the value of its own entry; and for the map that gives `text/plain` to
`content-type` and `application/json` to `Content-Type`, two keys that differ only in
letter case, the two iteration orders build different header collections. -/
theorem setHeaders_iteration_order :
    (∀ (h : Header) (headers reordered : List (String × String)),
        reordered.Perm headers →
        (headers.map fun kv => CanonicalMIMEHeaderKey kv.1).Nodup →
        setHeaders h headers = setHeaders h reordered
        ∧ ∀ kv ∈ headers, (setHeaders h reordered).Values kv.1 = some [kv.2])
    ∧ ("content-type".data.map Char.toLower = "Content-Type".data.map Char.toLower
        ∧ "content-type" ≠ "Content-Type"
        ∧ (setHeaders Header.empty
              [("content-type", "text/plain"), ("Content-Type", "application/json")]).Values
            "Content-Type" = some ["application/json"]
        ∧ (setHeaders Header.empty
              [("Content-Type", "application/json"), ("content-type", "text/plain")]).Values
            "Content-Type" = some ["text/plain"]
        ∧ setHeaders Header.empty
              [("content-type", "text/plain"), ("Content-Type", "application/json")]
            ≠ setHeaders Header.empty
              [("Content-Type", "application/json"), ("content-type", "text/plain")]) := by
  constructor
  · intro h headers reordered hperm hnd
    have hnd2 : (reordered.map fun kv => CanonicalMIMEHeaderKey kv.1).Nodup :=
      (hperm.map _).nodup_iff.mpr hnd
    constructor
    · apply Header.ext
      funext k
      rw [setHeaders_values, setHeaders_values]
      rcases hl : lastValue headers k with _ | value
      · have hnone : lastValue reordered k = none := by
          rw [lastValue_eq_none] at hl ⊢
          exact fun kv hmem => hl kv (hperm.mem_iff.mp hmem)
        simp [hnone]
      · obtain ⟨kv, hmem, hk, hv⟩ := lastValue_mem _ _ _ hl
        have h2 := lastValue_of_mem_nodup reordered hnd2 kv (hperm.mem_iff.mpr hmem)
        rw [hk, hv] at h2
        simp [h2]
    · intro kv hmem
      have h2 := lastValue_of_mem_nodup reordered hnd2 kv (hperm.mem_iff.mpr hmem)
      simp [Header.Values, setHeaders_values, h2]
  · have h1 : (setHeaders Header.empty
        [("content-type", "text/plain"), ("Content-Type", "application/json")]).Values
        "Content-Type" = some ["application/json"] := by decide
    have h2 : (setHeaders Header.empty
        [("Content-Type", "application/json"), ("content-type", "text/plain")]).Values
        "Content-Type" = some ["text/plain"] := by decide
    refine ⟨by decide, by decide, h1, h2, ?_⟩
    intro heq
    rw [heq, h2] at h1
    exact absurd h1 (by decide)

/-- Witness of C10: three headers with distinct canonical names, in two orders. -/
theorem setHeaders_iteration_order_witness :
    [("accept", "*/*"), ("Content-Type", "application/json"), ("x-request-id", "7")].Perm
      [("x-request-id", "7"), ("accept", "*/*"), ("Content-Type", "application/json")]
    ∧ setHeaders Header.empty
        [("x-request-id", "7"), ("accept", "*/*"), ("Content-Type", "application/json")]
      = setHeaders Header.empty
        [("accept", "*/*"), ("Content-Type", "application/json"), ("x-request-id", "7")] :=
  ⟨by decide, (setHeaders_iteration_order.1 Header.empty _ _ (by decide) (by decide)).1⟩

/-! ## Method and failure causes of `createHTTPRequest` -/

theorem createHTTPRequest_eq_error {F U : Type} (lib : StdLib F U) (req : Request F) :
    (∃ err, createHTTPRequest lib req = .error err) ↔
      ((∃ err, lib.urlParse req.Path = .error err)
        ∨ bodyReader lib.formatFloat req.Body = none
        ∨ validMethod (methodOrGET req.Method) = false
        ∨ ∃ parsedURL err, lib.urlParse req.Path = .ok parsedURL
            ∧ lib.urlParse (lib.urlString parsedURL) = .error err) := by
  rcases hc : createHTTPRequest lib req with err | httpReq
  · simp only [Except.error.injEq, exists_eq', true_iff]
    by_contra hno
    push_neg at hno
    obtain ⟨h1, h2, h3, h4⟩ := hno
    rcases hp : lib.urlParse req.Path with e1 | parsedURL
    · exact h1 e1 hp
    · rcases hb : bodyReader lib.formatFloat req.Body with _ | body
      · exact h2 hb
      · rcases hu : lib.urlParse (lib.urlString parsedURL) with e3 | u
        · exact h4 parsedURL e3 hp hu
        · have hok := (createHTTPRequest_eq_ok lib req _).mpr
            ⟨parsedURL, body, u, hp, hb, by simpa using h3, hu, rfl⟩
          rw [hc] at hok
          cases hok
  · obtain ⟨parsedURL, body, u, hp, hb, hv, hu, _⟩ := (createHTTPRequest_eq_ok lib req _).mp hc
    simp only [reduceCtorEq, exists_false, false_iff]
    push_neg
    refine ⟨fun e1 he => ?_, by simp [hb], by simp [hv], fun p e3 hp2 he => ?_⟩
    · rw [hp] at he; cases he
    · rw [hp] at hp2
      cases hp2
      rw [hu] at he
      cases he

theorem bodyReader_eq_none {F : Type} (formatFloat : F → Option String) (body : JSONValue F) :
    bodyReader formatFloat body = none ↔
      body.isNil = false ∧ ∃ err, Marshal formatFloat body = .error err := by
  unfold bodyReader
  rcases hnil : body.isNil
  · rcases hm : Marshal formatFloat body with err | bytes <;> simp
  · simp

/-- C8 as stated fails on both counts: the record with the empty method and the path
"/pets" is reconstructed with method GET, not with the record's method; and the record
with method "GET PETS", the path "/pets" (which parses) and no body is not
reconstructed, `http.NewRequest` rejecting the method. -/
theorem method_verbatim_counterexample :
    ((createHTTPRequest sampleLib
        { Method := "", Path := "/pets", Headers := [], Body := .null }).toOption.map
          fun httpReq => httpReq.Method) = some "GET"
    ∧ "GET" ≠ ""
    ∧ sampleLib.urlParse "/pets" = .ok "/pets"
    ∧ (JSONValue.null : JSONValue Int).isNil = true
    ∧ ((createHTTPRequest sampleLib
        { Method := "GET PETS", Path := "/pets", Headers := [], Body := .null }).toOption.map
          fun httpReq => httpReq.Method) = none := by
  refine ⟨by decide, by decide, rfl, by decide, by decide⟩

/-- C8, amended: when `createHTTPRequest` succeeds, the method of the request is the
record's method string unchanged if that string is not empty, and GET if it is empty;
`createHTTPRequest` fails exactly when the path does not parse, or the body is not nil
and cannot be marshalled, or `http.NewRequest` rejects the request, because the method
is not a token or because the printed URL does not parse again. -/
theorem createHTTPRequest_method_and_failures {F U : Type} (lib : StdLib F U)
    (req : Request F) :
    (∀ httpReq, createHTTPRequest lib req = .ok httpReq →
        (req.Method ≠ "" → httpReq.Method = req.Method)
        ∧ (req.Method = "" → httpReq.Method = "GET"))
    ∧ ((∃ err, createHTTPRequest lib req = .error err) ↔
        ((∃ err, lib.urlParse req.Path = .error err)
          ∨ (req.Body.isNil = false ∧ ∃ err, Marshal lib.formatFloat req.Body = .error err)
          ∨ validMethod (if req.Method = "" then "GET" else req.Method) = false
          ∨ ∃ parsedURL err, lib.urlParse req.Path = .ok parsedURL
              ∧ lib.urlParse (lib.urlString parsedURL) = .error err)) := by
  constructor
  · intro httpReq h
    obtain ⟨_, _, _, _, _, _, _, rfl⟩ := (createHTTPRequest_eq_ok lib req httpReq).mp h
    constructor
    · intro hne; simp [methodOrGET, hne]
    · intro he; simp [methodOrGET, he]
  · rw [createHTTPRequest_eq_error, bodyReader_eq_none]
    rfl

/-- Witness of amended C8: the method `get` is kept in lower case, and the method
"GET PETS", which is not a token, makes `createHTTPRequest` fail. -/
theorem createHTTPRequest_method_and_failures_witness :
    (∃ httpReq,
      createHTTPRequest sampleLib
          { Method := "get", Path := "/pets", Headers := [], Body := .null } = .ok httpReq
        ∧ httpReq.Method = "get")
    ∧ ∃ err,
        createHTTPRequest sampleLib
          { Method := "GET PETS", Path := "/pets", Headers := [], Body := .null }
          = .error err :=
  ⟨⟨{ Method := "get", URL := "/pets", Header := Header.empty, Body := none }, rfl,
      ((createHTTPRequest_method_and_failures sampleLib
        { Method := "get", Path := "/pets", Headers := [], Body := .null }).1
          { Method := "get", URL := "/pets", Header := Header.empty, Body := none } rfl).1
        (by decide)⟩,
    (createHTTPRequest_method_and_failures sampleLib
      { Method := "GET PETS", Path := "/pets", Headers := [], Body := .null }).2.mpr
        (Or.inr (Or.inr (Or.inl (by decide))))⟩

/-! ## The body of the reconstructed messages -/

theorem isNil_eq_true {F : Type} (body : JSONValue F) : body.isNil = true ↔ body = .null := by
  cases body <;> simp [JSONValue.isNil]

/-- C6 as stated fails for the JSON value `null`: its serialization is the four
characters `null`, but a record whose body is `null` is reconstructed, as a request and
as a response, with no body at all. -/
theorem null_body_counterexample :
    Marshal sampleLib.formatFloat (JSONValue.null : JSONValue Int) = .ok "null"
    ∧ ((createHTTPRequest sampleLib
        { Method := "GET", Path := "/pets", Headers := [], Body := .null }).toOption.map
          fun httpReq => httpReq.Body) = some none
    ∧ ((createHTTPResponse sampleLib { Status := 200, Headers := [], Body := .null }
        { Method := "GET", URL := "/pets", Header := Header.empty, Body := none }).toOption.map
          fun httpResp => httpResp.Body) = some none
    ∧ (some none : Option (Option String)) ≠ some (some "null") := by
  refine ⟨rfl, by decide, by decide, by decide⟩

/-- C6, amended: when `createHTTPRequest` or `createHTTPResponse` succeeds on a record
whose body is not nil (a bool, number, string, array or mapping), the body of the
message is the serialization of that value by `json.Marshal`; when the body is nil (the
key was absent, or its value was JSON `null`), the message has no body. -/
theorem body_is_marshalled_value {F U : Type} (lib : StdLib F U) :
    (∀ (req : Request F) (httpReq : HTTPRequest U),
        createHTTPRequest lib req = .ok httpReq →
        (req.Body ≠ .null →
          ∃ bodyBytes, Marshal lib.formatFloat req.Body = .ok bodyBytes
            ∧ httpReq.Body = some bodyBytes)
        ∧ (req.Body = .null → httpReq.Body = none))
    ∧ (∀ (resp : Response F) (httpReq : HTTPRequest U) (httpResp : HTTPResponse U),
        createHTTPResponse lib resp httpReq = .ok httpResp →
        (resp.Body ≠ .null →
          ∃ bodyBytes, Marshal lib.formatFloat resp.Body = .ok bodyBytes
            ∧ httpResp.Body = some bodyBytes)
        ∧ (resp.Body = .null → httpResp.Body = none)) := by
  have key : ∀ (body : JSONValue F) (reader : Option String),
      bodyReader lib.formatFloat body = some reader →
      (body ≠ .null → ∃ bodyBytes, Marshal lib.formatFloat body = .ok bodyBytes
          ∧ reader = some bodyBytes)
      ∧ (body = .null → reader = none) := by
    intro body reader hb
    unfold bodyReader at hb
    rcases hnil : body.isNil
    · have hne : body ≠ .null := fun hc => by simp [hc, JSONValue.isNil] at hnil
      rcases hm : Marshal lib.formatFloat body with err | bytes
      · simp [hnil, hm] at hb
      · simp only [hnil, hm, Bool.false_eq_true, if_false, Option.some.injEq] at hb
        exact ⟨fun _ => ⟨bytes, rfl, hb.symm⟩, fun hc => absurd hc hne⟩
    · simp only [hnil, if_true, Option.some.injEq] at hb
      exact ⟨fun hne => absurd ((isNil_eq_true body).mp hnil) hne, fun _ => hb.symm⟩
  constructor
  · intro req httpReq h
    obtain ⟨_, body, _, _, hb, _, _, rfl⟩ := (createHTTPRequest_eq_ok lib req httpReq).mp h
    exact key req.Body body hb
  · intro resp httpReq httpResp h
    obtain ⟨body, hb, rfl⟩ := (createHTTPResponse_eq_ok lib resp httpReq httpResp).mp h
    exact key resp.Body body hb

/-- Witness of amended C6: the request of the sample entry with a structured body
carries the marshalled mapping, the response of the same entry, whose body is nil,
carries nothing. -/
theorem body_is_marshalled_value_witness :
    (∃ bodyBytes, Marshal sampleLib.formatFloat postEntry.Request.Body = .ok bodyBytes
      ∧ ((createHTTPRequest sampleLib postEntry.Request).toOption.map
          fun httpReq => httpReq.Body) = some (some bodyBytes))
    ∧ ((createHTTPResponse sampleLib postEntry.Response
          { Method := "POST", URL := "/pets", Header := Header.empty, Body := none }).toOption.map
        fun httpResp => httpResp.Body) = some none := by
  have h := body_is_marshalled_value sampleLib
  constructor
  · rcases hc : createHTTPRequest sampleLib postEntry.Request with err | httpReq
    · have ht : (createHTTPRequest sampleLib postEntry.Request).toBool = true := by decide
      rw [hc] at ht
      exact absurd ht (by simp [Except.toBool])
    · obtain ⟨bodyBytes, hm, hb⟩ := (h.1 postEntry.Request httpReq hc).1
        (by simp [postEntry])
      exact ⟨bodyBytes, hm, by simp [Except.toOption, hb]⟩
  · decide

/-! ## Marshalling never fails on decoded values -/

mutual
theorem encodeValue_isSome {F : Type} (formatFloat : F → Option String) :
    ∀ v : JSONValue F, v.finite formatFloat = true → (encodeValue formatFloat v).isSome = true
  | .null, _ => rfl
  | .bool true, _ => rfl
  | .bool false, _ => rfl
  | .number x, h => by
    simp only [JSONValue.finite] at h
    simp [encodeValue, h]
  | .string _, _ => rfl
  | .array xs, h => by
    simp only [JSONValue.finite] at h
    simp [encodeValue, encodeElems_isSome formatFloat xs h]
  | .object kvs, h => by
    simp only [JSONValue.finite] at h
    simp [encodeValue, encodeEntries_isSome formatFloat kvs h]
theorem encodeElems_isSome {F : Type} (formatFloat : F → Option String) :
    ∀ xs : List (JSONValue F), finiteElems formatFloat xs = true →
      (encodeElems formatFloat xs).isSome = true
  | [], _ => rfl
  | x :: xs, h => by
    simp only [finiteElems, Bool.and_eq_true] at h
    have h1 := encodeValue_isSome formatFloat x h.1
    have h2 := encodeElems_isSome formatFloat xs h.2
    rw [Option.isSome_iff_exists] at h1 h2
    obtain ⟨p, hp⟩ := h1
    obtain ⟨ps, hps⟩ := h2
    simp [encodeElems, hp, hps]
theorem encodeEntries_isSome {F : Type} (formatFloat : F → Option String) :
    ∀ kvs : List (String × JSONValue F), finiteEntries formatFloat kvs = true →
      (encodeEntries formatFloat kvs).isSome = true
  | [], _ => rfl
  | (k, x) :: kvs, h => by
    simp only [finiteEntries, Bool.and_eq_true] at h
    have h1 := encodeValue_isSome formatFloat x h.1
    have h2 := encodeEntries_isSome formatFloat kvs h.2
    rw [Option.isSome_iff_exists] at h1 h2
    obtain ⟨p, hp⟩ := h1
    obtain ⟨ps, hps⟩ := h2
    simp [encodeEntries, hp, hps]
end

theorem Marshal_ok_of_finite {F : Type} (formatFloat : F → Option String) (v : JSONValue F)
    (h : v.finite formatFloat = true) : ∃ bodyBytes, Marshal formatFloat v = .ok bodyBytes := by
  have h1 := encodeValue_isSome formatFloat v h
  rw [Option.isSome_iff_exists] at h1
  obtain ⟨cs, hcs⟩ := h1
  exact ⟨String.mk cs, by simp [Marshal, hcs]⟩

theorem createHTTPResponse_ok_of_finite {F U : Type} (lib : StdLib F U) (resp : Response F)
    (httpReq : HTTPRequest U) (h : resp.Body.finite lib.formatFloat = true) :
    ∃ httpResp, createHTTPResponse lib resp httpReq = .ok httpResp := by
  obtain ⟨bytes, hb⟩ := Marshal_ok_of_finite lib.formatFloat resp.Body h
  rcases hnil : resp.Body.isNil
  · exact ⟨_, (createHTTPResponse_eq_ok lib resp httpReq _).mpr
      ⟨some bytes, by simp [bodyReader, hnil, hb], rfl⟩⟩
  · exact ⟨_, (createHTTPResponse_eq_ok lib resp httpReq _).mpr
      ⟨none, by simp [bodyReader, hnil], rfl⟩⟩

/-- C9: on a response record whose body is nil or a decoded JSON value with finite
numbers, whatever the status code and the header map, `createHTTPResponse` returns a
response and no error; hence in a transcript of such records an entry is skipped only
when `createHTTPRequest` fails, every entry whose request is reconstructed is counted
in exactly one of the two counters, and `validCount + invalidCount` is the number of
entries whose request is reconstructed. -/
theorem createHTTPResponse_never_fails {F U E : Type} (lib : StdLib F U)
    (v : Validator E U) (requests : List (RequestResponse F)) :
    (∀ (resp : Response F) (httpReq : HTTPRequest U),
        resp.Body.finite lib.formatFloat = true →
        ∃ httpResp, createHTTPResponse lib resp httpReq = .ok httpResp)
    ∧ ((∀ e ∈ requests, e.Response.Body.finite lib.formatFloat = true) →
        (∀ e ∈ requests,
          (skipped lib e = true ↔ ∃ err, createHTTPRequest lib e.Request = .error err)
          ∧ ∀ httpReq, createHTTPRequest lib e.Request = .ok httpReq →
              (conforms lib v e = true ∧ violates lib v e = false)
                ∨ (conforms lib v e = false ∧ violates lib v e = true))
        ∧ (main lib v requests).validCount + (main lib v requests).invalidCount
            = requests.countP fun e => (createHTTPRequest lib e.Request).toBool) := by
  refine ⟨fun resp httpReq h => createHTTPResponse_ok_of_finite lib resp httpReq h, ?_⟩
  intro hfin
  have hskip : ∀ e ∈ requests,
      skipped lib e = !(createHTTPRequest lib e.Request).toBool := by
    intro e he
    unfold skipped
    rcases h1 : createHTTPRequest lib e.Request with err | httpReq
    · rfl
    · obtain ⟨httpResp, h2⟩ := createHTTPResponse_ok_of_finite lib e.Response httpReq (hfin e he)
      simp [h2, Except.toBool]
  constructor
  · intro e he
    have hs := hskip e he
    constructor
    · rw [hs]
      rcases h1 : createHTTPRequest lib e.Request with err | httpReq <;> simp [Except.toBool]
    · intro httpReq h1
      rw [h1] at hs
      have hp := skipped_or_conforms_or_violates lib v e
      rw [hs] at hp
      rcases hc : conforms lib v e <;> rcases hv : violates lib v e
        <;> simp [hc, hv, Except.toBool] at hp ⊢
  · have hp := count_partition lib v requests
    have hcount : ∀ l : List (RequestResponse F), (∀ e ∈ l, e ∈ requests) →
        l.countP (skipped lib) + l.countP (fun e => (createHTTPRequest lib e.Request).toBool)
          = l.length := by
      intro l
      induction l with
      | nil => intro _; rfl
      | cons e rest ih =>
        intro hsub
        have hs := hskip e (hsub e (List.mem_cons_self _ _))
        have ih2 := ih fun x hx => hsub x (List.mem_cons_of_mem _ hx)
        simp only [List.countP_cons, List.length_cons, hs]
        rcases (createHTTPRequest lib e.Request).toBool <;> simp <;> omega
    have hc := hcount requests fun _ h => h
    rw [main_validCount, main_invalidCount]
    omega

/-- Witness of C9: the two sample entries; their response bodies are an empty array and
nil, and one request has a bad path. -/
theorem createHTTPResponse_never_fails_witness :
    (∀ e ∈ [petsEntry, badPathEntry], e.Response.Body.finite sampleLib.formatFloat = true)
    ∧ (main sampleLib rejectAll [petsEntry, badPathEntry]).validCount
        + (main sampleLib rejectAll [petsEntry, badPathEntry]).invalidCount
      = [petsEntry, badPathEntry].countP
          fun e => (createHTTPRequest sampleLib e.Request).toBool :=
  ⟨by decide, ((createHTTPResponse_never_fails sampleLib rejectAll
      [petsEntry, badPathEntry]).2 (by decide)).2⟩

/-! ## Marshalled bodies decode to the original value -/

theorem hexValue_hexDigit (k : Nat) (h : k < 16) : hexValue (hexDigit k) = some k := by
  interval_cases k <;> rfl

theorem getu4_hexDigits (a b c d : Nat) (ha : a < 16) (hb : b < 16) (hc : c < 16) (hd : d < 16)
    (rest : List Char) :
    getu4 ('u' :: hexDigit a :: hexDigit b :: hexDigit c :: hexDigit d :: rest)
      = some (((a * 16 + b) * 16 + c) * 16 + d, rest) := by
  simp [getu4, hexValue_hexDigit, ha, hb, hc, hd]

theorem readEscape_u (n : Nat) (hn : n < 0xD800) (rest : List Char)
    (a b c d : Nat) (ha : a < 16) (hb : b < 16) (hc : c < 16) (hd : d < 16)
    (hval : ((a * 16 + b) * 16 + c) * 16 + d = n) :
    readEscape ('u' :: hexDigit a :: hexDigit b :: hexDigit c :: hexDigit d :: rest)
      = some (Char.ofNat n, rest) := by
  have hne : ¬ (0xD800 ≤ n ∧ n < 0xE000) := by omega
  have h1 : ¬ ('u' = '\x22' ∨ 'u' = '\x5c' ∨ 'u' = '/') := by decide
  simp only [readEscape, h1, if_false, getu4_hexDigits a b c d ha hb hc hd, hval, hne]
  simp

theorem parseStringTail_escapeChar (c : Char) (fuel : Nat) (rest : List Char) :
    parseStringTail (fuel + 1) (escapeChar c ++ rest)
      = match parseStringTail fuel rest with
        | none => none
        | some (s, rest1) => some (c :: s, rest1) := by
  unfold escapeChar
  split_ifs with h1 h2 h3 h4 h5 h6 h7 h8
  · rcases h1 with rfl | rfl <;> simp [parseStringTail, readEscape]
  · subst h2; simp [parseStringTail, readEscape]
  · subst h3; simp [parseStringTail, readEscape]
  · subst h4; simp [parseStringTail, readEscape]
  · subst h5; simp [parseStringTail, readEscape]
  · subst h6; simp [parseStringTail, readEscape]
  · have hlt : c.toNat < 128 := by
      rcases h7 with h | rfl | rfl | rfl
      · omega
      · decide
      · decide
      · decide
    have hesc := readEscape_u c.toNat (by omega) rest 0 0 (c.toNat / 16) (c.toNat % 16)
      (by omega) (by omega) (by omega) (by omega) (by omega)
    have h0 : hexDigit 0 = '0' := rfl
    rw [h0, Char.ofNat_toNat] at hesc
    simp [parseStringTail, hesc]
  · have hesc := readEscape_u c.toNat (by omega) rest 2 0 2 (c.toNat % 16)
      (by omega) (by omega) (by omega) (by omega) (by omega)
    have h0 : hexDigit 0 = '0' := rfl
    have h2 : hexDigit 2 = '2' := rfl
    rw [h0, h2, Char.ofNat_toNat] at hesc
    simp [parseStringTail, hesc]
  · push_neg at h1 h7
    simp [parseStringTail, h1.1, h1.2, h7.1]

theorem parseStringTail_escapeChars (s : List Char) :
    ∀ (fuel : Nat) (tail : List Char), s.length + 1 ≤ fuel →
      parseStringTail fuel (escapeChars s ++ '\x22' :: tail) = some (s, tail) := by
  induction s with
  | nil =>
    intro fuel tail h
    obtain ⟨f, rfl⟩ : ∃ f, fuel = f + 1 := ⟨fuel - 1, by simp at h; omega⟩
    simp [escapeChars, parseStringTail]
  | cons c cs ih =>
    intro fuel tail h
    obtain ⟨f, rfl⟩ : ∃ f, fuel = f + 1 := ⟨fuel - 1, by simp at h; omega⟩
    have hf : cs.length + 1 ≤ f := by simp at h; omega
    rw [escapeChars, List.append_assoc, parseStringTail_escapeChar, ih f tail hf]

theorem escapeChars_length (s : List Char) : s.length ≤ (escapeChars s).length := by
  induction s with
  | nil => simp [escapeChars]
  | cons c cs ih =>
    have h1 : 1 ≤ (escapeChar c).length := by
      unfold escapeChar
      split_ifs <;> simp
    simp only [escapeChars, List.length_append, List.length_cons]
    omega

theorem endsNumber_nil : EndsNumber [] := by
  intro c rest h
  cases h

theorem endsNumber_cons (c : Char) (rest : List Char) (h : isNumberChar c = false) :
    EndsNumber (c :: rest) := by
  intro d rest2 heq
  cases heq
  exact h

theorem skipSpace_cons (c : Char) (cs : List Char) (h : isSpace c = false) :
    skipSpace (c :: cs) = c :: cs := by
  simp [skipSpace, h]

theorem joinComma_cons_cons (p q : List Char) (rest : List (List Char)) :
    joinComma (p :: q :: rest) = p ++ ',' :: joinComma (q :: rest) := rfl

theorem parseElems_joinComma {F : Type} (parseFloat : String → Option F)
    (parts : List (List Char)) (ws : List (JSONValue F))
    (h : List.Forall₂ (ParsesAs parseFloat) parts ws) :
    parts ≠ [] → ∀ (fuel : Nat) (tail : List Char), (joinComma parts).length + 1 ≤ fuel →
      parseElems parseFloat fuel (joinComma parts ++ ']' :: tail) = some (ws, tail) := by
  induction h with
  | nil => intro hne; exact absurd rfl hne
  | @cons p w ps ws1 hp hrest ih =>
    intro _ fuel tail hfuel
    obtain ⟨f, rfl⟩ : ∃ f, fuel = f + 1 := ⟨fuel - 1, by omega⟩
    cases hrest with
    | nil =>
      simp only [joinComma] at hfuel ⊢
      have h1 := hp.2 f (']' :: tail) (by omega) (endsNumber_cons _ _ (by decide))
      simp [parseElems, h1, skipSpace, isSpace]
    | @cons q w2 qs ws2 hq hrest2 =>
      rw [joinComma_cons_cons] at hfuel ⊢
      simp only [List.length_append, List.length_cons] at hfuel
      have h1 := hp.2 f (',' :: (joinComma (q :: qs) ++ ']' :: tail)) (by omega)
        (endsNumber_cons _ _ (by decide))
      have h2 := ih (by simp) f tail (by omega)
      simp [parseElems, h1, skipSpace, isSpace, h2]

theorem assignFirst_of_not_mem {α : Type} (k : String) (x : α) (later : List (String × α))
    (h : k ∉ later.map Prod.fst) : assignFirst k x later = (k, x) :: later := by
  unfold assignFirst
  have hany : later.any (fun p => p.1 == k) = false := by
    rw [List.any_eq_false]
    intro p hp hk
    exact h (List.mem_map.mpr ⟨p, hp, by simpa using hk⟩)
  simp [hany]

theorem encodeMember_length (p : String × List Char) :
    p.1.data.length + 3 + p.2.length ≤ (encodeMember p).length := by
  have h := escapeChars_length p.1.data
  simp only [encodeMember, appendString, List.length_append, List.length_cons,
    List.length_nil]
  omega

theorem parseMembers_joinComma {F : Type} (parseFloat : String → Option F)
    (parts : List (String × List Char)) (entries : List (String × JSONValue F))
    (h : List.Forall₂ (EntryParsesAs parseFloat) parts entries) :
    parts ≠ [] → (entries.map Prod.fst).Nodup →
      ∀ (fuel : Nat) (tail : List Char),
        (joinComma (parts.map encodeMember)).length + 1 ≤ fuel →
        parseMembers parseFloat fuel (joinComma (parts.map encodeMember) ++ '\x7d' :: tail)
          = some (entries, tail) := by
  induction h with
  | nil => intro hne; exact absurd rfl hne
  | @cons p e ps es hp hrest ih =>
    intro _ hnd fuel tail hfuel
    obtain ⟨f, rfl⟩ : ∃ f, fuel = f + 1 := ⟨fuel - 1, by omega⟩
    obtain ⟨k, text⟩ := p
    obtain ⟨k2, w⟩ := e
    obtain ⟨hk, hw⟩ := hp
    simp only at hk hw
    subst hk
    have hlen := encodeMember_length (k, text)
    simp only at hlen
    have hmk : String.mk k.data = k := rfl
    have hm : encodeMember (k, text)
        = '\x22' :: (escapeChars k.data ++ '\x22' :: ':' :: text) := by
      simp [encodeMember, appendString]
    cases hrest with
    | nil =>
      simp only [List.map_cons, List.map_nil, joinComma] at hfuel ⊢
      have h1 := parseStringTail_escapeChars k.data f
        (':' :: (text ++ '\x7d' :: tail)) (by omega)
      have h2 := hw.2 f ('\x7d' :: tail) (by omega) (endsNumber_cons _ _ (by decide))
      rw [hm]
      simp [parseMembers, skipSpace, isSpace, h1, h2, hmk]
    | @cons q e2 qs es2 hq hrest2 =>
      simp only [List.map_cons] at hfuel ih ⊢
      rw [joinComma_cons_cons] at hfuel ⊢
      simp only [List.length_append, List.length_cons] at hfuel
      have h1 := parseStringTail_escapeChars k.data f
        (':' :: (text ++ ',' :: (joinComma (encodeMember q :: qs.map encodeMember)
          ++ '\x7d' :: tail))) (by omega)
      have h2 := hw.2 f (',' :: (joinComma (encodeMember q :: qs.map encodeMember)
          ++ '\x7d' :: tail)) (by omega) (endsNumber_cons _ _ (by decide))
      have hnd2 := List.nodup_cons.mp hnd
      have h3 := ih (by simp) hnd2.2 f tail (by omega)
      have h4 := assignFirst_of_not_mem k w (e2 :: es2) hnd2.1
      rw [hm]
      simp [parseMembers, skipSpace, isSpace, h1, h2, h3, h4, hmk]

theorem orderedInsert_entryParsesAs {F : Type} (parseFloat : String → Option F)
    (p : String × List Char) (q : String × JSONValue F) (hpq : EntryParsesAs parseFloat p q)
    (l : List (String × List Char)) (m : List (String × JSONValue F))
    (h : List.Forall₂ (EntryParsesAs parseFloat) l m) :
    List.Forall₂ (EntryParsesAs parseFloat)
      (List.orderedInsert (fun a b => keyLE a.1.data b.1.data = true) p l)
      (List.orderedInsert (fun a b => keyLE a.1.data b.1.data = true) q m) := by
  induction h with
  | nil => exact List.Forall₂.cons hpq List.Forall₂.nil
  | @cons a b l1 m1 hab hrest ih =>
    have hk : (keyLE p.1.data a.1.data = true) ↔ (keyLE q.1.data b.1.data = true) := by
      rw [hpq.1, hab.1]
    simp only [List.orderedInsert]
    by_cases hc : keyLE p.1.data a.1.data = true
    · rw [if_pos hc, if_pos (hk.mp hc)]
      exact List.Forall₂.cons hpq (List.Forall₂.cons hab hrest)
    · rw [if_neg hc, if_neg (fun h => hc (hk.mpr h))]
      exact List.Forall₂.cons hab ih

theorem sortByKey_entryParsesAs {F : Type} (parseFloat : String → Option F)
    (l : List (String × List Char)) (m : List (String × JSONValue F))
    (h : List.Forall₂ (EntryParsesAs parseFloat) l m) :
    List.Forall₂ (EntryParsesAs parseFloat) (sortByKey l) (sortByKey m) := by
  induction h with
  | nil => exact List.Forall₂.nil
  | @cons a b l1 m1 hab _ ih =>
    exact orderedInsert_entryParsesAs parseFloat a b hab _ _ ih

theorem sortByKey_perm {α : Type} (l : List (String × α)) : (sortByKey l).Perm l :=
  List.perm_insertionSort _ l

theorem isNumberChar_head (c : Char) (h : isNumberChar c = true) :
    isSpace c = false ∧ c ≠ ']' ∧ c ≠ 'n' ∧ c ≠ 't' ∧ c ≠ 'f' ∧ c ≠ '\x22' ∧ c ≠ '['
      ∧ c ≠ '\x7b' := by
  refine ⟨?_, ?_, ?_, ?_, ?_, ?_, ?_, ?_⟩
  · rcases hs : isSpace c with _ | _
    · rfl
    · simp only [isSpace, Bool.or_eq_true, beq_iff_eq] at hs
      rcases hs with ((rfl | rfl) | rfl) | rfl <;> exact absurd h (by decide)
  all_goals
    intro hc
    subst hc
    exact absurd h (by decide)

theorem takeWhile_dropWhile_number (l tail : List Char)
    (hl : ∀ c ∈ l, isNumberChar c = true) (ht : EndsNumber tail) :
    (l ++ tail).takeWhile isNumberChar = l ∧ (l ++ tail).dropWhile isNumberChar = tail := by
  induction l with
  | nil =>
    cases tail with
    | nil => simp
    | cons c rest =>
      have h := ht c rest rfl
      simp [List.takeWhile, List.dropWhile, h]
  | cons c cs ih =>
    have hc := hl c (List.mem_cons_self _ _)
    have ih2 := ih fun d hd => hl d (List.mem_cons_of_mem _ hd)
    simp [List.takeWhile, List.dropWhile, hc, ih2.1, ih2.2]

theorem forall₂_ne_nil {α β : Type} {R : α → β → Prop} {l : List α} {m : List β}
    (h : List.Forall₂ R l m) (hm : m ≠ []) : l ≠ [] := by
  cases h with
  | nil => exact absurd rfl hm
  | cons _ _ => simp

theorem parsesAs_head_joinComma {F : Type} (parseFloat : String → Option F)
    (parts : List (List Char)) (ws : List (JSONValue F))
    (h : List.Forall₂ (ParsesAs parseFloat) parts ws) (hne : parts ≠ []) (tail : List Char) :
    ∃ c cs, joinComma parts ++ tail = c :: cs ∧ isSpace c = false ∧ c ≠ ']' := by
  cases h with
  | nil => exact absurd rfl hne
  | @cons p w ps ws1 hp hrest =>
    obtain ⟨⟨c, cs, rfl, hs, hb⟩, _⟩ := hp
    cases ps with
    | nil => exact ⟨c, cs ++ tail, by simp [joinComma], hs, hb⟩
    | cons q qs =>
      exact ⟨c, cs ++ ',' :: (joinComma (q :: qs) ++ tail),
        by rw [joinComma_cons_cons]; simp, hs, hb⟩

theorem joinComma_members_head (ps : List (String × List Char)) (hne : ps ≠ [])
    (tail : List Char) :
    ∃ cs, joinComma (ps.map encodeMember) ++ tail = '\x22' :: cs := by
  cases ps with
  | nil => exact absurd rfl hne
  | cons p ps1 =>
    cases ps1 with
    | nil => exact ⟨_, by simp [joinComma, encodeMember, appendString]; rfl⟩
    | cons q qs =>
      exact ⟨_, by
        simp only [List.map_cons]
        rw [joinComma_cons_cons]
        simp [encodeMember, appendString]
        rfl⟩

theorem sortByKey_ne_nil {α : Type} (l : List (String × α)) (h : l ≠ []) : sortByKey l ≠ [] := by
  intro hs
  have hp := (sortByKey_perm l).length_eq
  rw [hs] at hp
  exact h (List.length_eq_zero.mp hp.symm)

theorem sortKeysEntries_keys {F : Type} :
    ∀ kvs : List (String × JSONValue F), (sortKeysEntries kvs).map Prod.fst = kvs.map Prod.fst
  | [] => rfl
  | (k, x) :: kvs => by simp [sortKeysEntries, sortKeysEntries_keys kvs]

mutual
theorem encodeValue_parsesAs {F : Type} (formatFloat : F → Option String)
    (parseFloat : String → Option F)
    (hcodec : ∀ x text, formatFloat x = some text → NumberText text ∧ parseFloat text = some x) :
    ∀ (v : JSONValue F) (text : List Char), encodeValue formatFloat v = some text →
      v.distinctKeys → ParsesAs parseFloat text v.sortKeys
  | .null, text, h, _ => by
    simp only [encodeValue, Option.some.injEq] at h
    subst h
    refine ⟨⟨'n', _, rfl, by decide, by decide⟩, ?_⟩
    intro fuel tail hf _
    obtain ⟨f, rfl⟩ : ∃ f, fuel = f + 1 := ⟨fuel - 1, by simp at hf; omega⟩
    simp [parseValue, skipSpace, isSpace, expectLiteral, JSONValue.sortKeys]
  | .bool true, text, h, _ => by
    simp only [encodeValue, Option.some.injEq] at h
    subst h
    refine ⟨⟨'t', _, rfl, by decide, by decide⟩, ?_⟩
    intro fuel tail hf _
    obtain ⟨f, rfl⟩ : ∃ f, fuel = f + 1 := ⟨fuel - 1, by simp at hf; omega⟩
    simp [parseValue, skipSpace, isSpace, expectLiteral, JSONValue.sortKeys]
  | .bool false, text, h, _ => by
    simp only [encodeValue, Option.some.injEq] at h
    subst h
    refine ⟨⟨'f', _, rfl, by decide, by decide⟩, ?_⟩
    intro fuel tail hf _
    obtain ⟨f, rfl⟩ : ∃ f, fuel = f + 1 := ⟨fuel - 1, by simp at hf; omega⟩
    simp [parseValue, skipSpace, isSpace, expectLiteral, JSONValue.sortKeys]
  | .number x, text, h, _ => by
    simp only [encodeValue, Option.map_eq_some'] at h
    obtain ⟨s, hs, rfl⟩ := h
    obtain ⟨⟨hne, hall⟩, hparse⟩ := hcodec x s hs
    obtain ⟨c, cs, hdata⟩ : ∃ c cs, s.data = c :: cs := by
      cases hd : s.data with
      | nil => exact absurd hd hne
      | cons c cs => exact ⟨c, cs, rfl⟩
    have hc : isNumberChar c = true := hall c (by rw [hdata]; exact List.mem_cons_self _ _)
    obtain ⟨h1, h2, h3, h4, h5, h6, h7, h8⟩ := isNumberChar_head c hc
    refine ⟨⟨c, cs, hdata, h1, h2⟩, ?_⟩
    intro fuel tail hf ht
    obtain ⟨f, rfl⟩ : ∃ f, fuel = f + 1 := ⟨fuel - 1, by rw [hdata] at hf; simp at hf; omega⟩
    have htd := takeWhile_dropWhile_number s.data tail hall ht
    rw [hdata] at htd
    have hmk : String.mk (c :: cs) = s := by rw [← hdata]
    simp only [List.cons_append] at htd
    rw [hdata]
    simp only [parseValue, List.cons_append, skipSpace_cons c _ h1, h3, h4, h5, h6, h7, h8,
      if_false, hc, if_true, htd.1, htd.2, hmk, hparse, Option.map_some', JSONValue.sortKeys]
  | .string s, text, h, _ => by
    simp only [encodeValue, Option.some.injEq] at h
    subst h
    refine ⟨⟨'\x22', _, rfl, by decide, by decide⟩, ?_⟩
    intro fuel tail hf _
    obtain ⟨f, rfl⟩ : ∃ f, fuel = f + 1 := ⟨fuel - 1, by simp [appendString] at hf; omega⟩
    have hlen := escapeChars_length s.data
    have h1 := parseStringTail_escapeChars s.data f tail
      (by simp [appendString] at hf; omega)
    have hmk : String.mk s.data = s := rfl
    simp [parseValue, appendString, skipSpace, isSpace, h1, JSONValue.sortKeys, hmk]
  | .array xs, text, h, hd => by
    simp only [encodeValue, Option.map_eq_some'] at h
    obtain ⟨parts, hparts, rfl⟩ := h
    simp only [JSONValue.distinctKeys] at hd
    have hall := encodeElems_parsesAs formatFloat parseFloat hcodec xs parts hparts hd
    refine ⟨⟨'[', _, rfl, by decide, by decide⟩, ?_⟩
    intro fuel tail hf _
    obtain ⟨f, rfl⟩ : ∃ f, fuel = f + 1 := ⟨fuel - 1, by simp at hf; omega⟩
    rw [JSONValue.sortKeys]
    by_cases hp : parts = []
    · subst hp
      have hws : sortKeysElems xs = [] := List.forall₂_nil_left_iff.mp hall
      rw [hws]
      simp [parseValue, skipSpace, isSpace, joinComma]
    · obtain ⟨c, cs, hhead, hs, hb⟩ :=
        parsesAs_head_joinComma parseFloat parts _ hall hp (']' :: tail)
      have h1 := parseElems_joinComma parseFloat parts _ hall hp f tail
        (by simp at hf; omega)
      have hskip : skipSpace (joinComma parts ++ ']' :: tail) = c :: cs := by
        rw [hhead]; exact skipSpace_cons c cs hs
      have hgoal : parseValue parseFloat (f + 1) ('[' :: (joinComma parts ++ ']' :: tail))
          = some (JSONValue.array (sortKeysElems xs), tail) := by
        simp only [parseValue, skipSpace_cons '[' _ (by decide)]
        rw [if_neg (by decide), if_neg (by decide), if_neg (by decide), if_neg (by decide),
          if_pos trivial, hskip, h1]
        split
        · rename_i heq
          simp only [List.cons.injEq] at heq
          exact absurd heq.1 hb
        · rfl
      simpa using hgoal
  | .object kvs, text, h, hd => by
    simp only [encodeValue, Option.map_eq_some'] at h
    obtain ⟨parts, hparts, rfl⟩ := h
    simp only [JSONValue.distinctKeys] at hd
    have hall := encodeEntries_parsesAs formatFloat parseFloat hcodec kvs parts hparts hd.2
    have hsorted := sortByKey_entryParsesAs parseFloat _ _ hall
    have hnd : ((sortByKey (sortKeysEntries kvs)).map Prod.fst).Nodup := by
      have hperm := (sortByKey_perm (sortKeysEntries kvs)).map Prod.fst
      rw [hperm.nodup_iff, sortKeysEntries_keys]
      exact hd.1
    refine ⟨⟨'\x7b', _, rfl, by decide, by decide⟩, ?_⟩
    intro fuel tail hf _
    obtain ⟨f, rfl⟩ : ∃ f, fuel = f + 1 := ⟨fuel - 1, by simp at hf; omega⟩
    rw [JSONValue.sortKeys]
    by_cases hp : parts = []
    · subst hp
      have hws : sortKeysEntries kvs = [] := List.forall₂_nil_left_iff.mp hall
      rw [hws]
      simp [parseValue, skipSpace, isSpace, joinComma, sortByKey]
    · have hp2 := sortByKey_ne_nil parts hp
      obtain ⟨cs, hhead⟩ := joinComma_members_head (sortByKey parts) hp2 ('\x7d' :: tail)
      have h1 := parseMembers_joinComma parseFloat _ _ hsorted hp2 hnd f tail
        (by simp at hf; omega)
      have hskip : skipSpace (joinComma ((sortByKey parts).map encodeMember) ++ '\x7d' :: tail)
          = '\x22' :: cs := by
        rw [hhead]; exact skipSpace_cons _ cs (by decide)
      have hgoal : parseValue parseFloat (f + 1)
          ('\x7b' :: (joinComma ((sortByKey parts).map encodeMember) ++ '\x7d' :: tail))
          = some (JSONValue.object (sortByKey (sortKeysEntries kvs)), tail) := by
        simp only [parseValue, skipSpace_cons '\x7b' _ (by decide)]
        rw [if_neg (by decide), if_neg (by decide), if_neg (by decide), if_neg (by decide),
          if_neg (by decide), if_pos trivial, hskip, h1]
        rfl
      simpa using hgoal
theorem encodeElems_parsesAs {F : Type} (formatFloat : F → Option String)
    (parseFloat : String → Option F)
    (hcodec : ∀ x text, formatFloat x = some text → NumberText text ∧ parseFloat text = some x) :
    ∀ (xs : List (JSONValue F)) (parts : List (List Char)),
      encodeElems formatFloat xs = some parts → distinctKeysElems xs →
      List.Forall₂ (ParsesAs parseFloat) parts (sortKeysElems xs)
  | [], parts, h, _ => by
    simp only [encodeElems, Option.some.injEq] at h
    subst h
    exact List.Forall₂.nil
  | x :: xs, parts, h, hd => by
    simp only [distinctKeysElems] at hd
    rcases hx : encodeValue formatFloat x with _ | p
    · simp [encodeElems, hx] at h
    · rcases hxs : encodeElems formatFloat xs with _ | ps
      · simp [encodeElems, hx, hxs] at h
      · simp only [encodeElems, hx, hxs, Option.some.injEq] at h
        subst h
        exact List.Forall₂.cons
          (encodeValue_parsesAs formatFloat parseFloat hcodec x p hx hd.1)
          (encodeElems_parsesAs formatFloat parseFloat hcodec xs ps hxs hd.2)
theorem encodeEntries_parsesAs {F : Type} (formatFloat : F → Option String)
    (parseFloat : String → Option F)
    (hcodec : ∀ x text, formatFloat x = some text → NumberText text ∧ parseFloat text = some x) :
    ∀ (kvs : List (String × JSONValue F)) (parts : List (String × List Char)),
      encodeEntries formatFloat kvs = some parts → distinctKeysEntries kvs →
      List.Forall₂ (EntryParsesAs parseFloat) parts (sortKeysEntries kvs)
  | [], parts, h, _ => by
    simp only [encodeEntries, Option.some.injEq] at h
    subst h
    exact List.Forall₂.nil
  | (k, x) :: kvs, parts, h, hd => by
    simp only [distinctKeysEntries] at hd
    rcases hx : encodeValue formatFloat x with _ | p
    · simp [encodeEntries, hx] at h
    · rcases hxs : encodeEntries formatFloat kvs with _ | ps
      · simp [encodeEntries, hx, hxs] at h
      · simp only [encodeEntries, hx, hxs, Option.some.injEq] at h
        subst h
        exact List.Forall₂.cons
          ⟨rfl, encodeValue_parsesAs formatFloat parseFloat hcodec x p hx hd.1⟩
          (encodeEntries_parsesAs formatFloat parseFloat hcodec kvs ps hxs hd.2)
end

theorem Unmarshal_Marshal {F : Type} (formatFloat : F → Option String)
    (parseFloat : String → Option F)
    (hcodec : ∀ x text, formatFloat x = some text → NumberText text ∧ parseFloat text = some x)
    (v : JSONValue F) (bodyBytes : String) (h : Marshal formatFloat v = .ok bodyBytes)
    (hd : v.distinctKeys) : Unmarshal parseFloat bodyBytes = .ok v.sortKeys := by
  unfold Marshal at h
  rcases he : encodeValue formatFloat v with _ | cs
  · simp [he] at h
  · simp only [he, Except.ok.injEq] at h
    subst h
    have hp := (encodeValue_parsesAs formatFloat parseFloat hcodec v cs he hd).2
      (cs.length + 1) [] (by omega) endsNumber_nil
    rw [List.append_nil] at hp
    have hlen : (String.mk cs).length = cs.length := rfl
    simp [Unmarshal, hlen, hp, skipSpace]

theorem lookupKey_of_mem_nodup {α : Type} (kvs : List (String × α))
    (hnd : (kvs.map Prod.fst).Nodup) (p : String × α) (hp : p ∈ kvs) :
    lookupKey p.1 kvs = some p.2 := by
  induction kvs with
  | nil => cases hp
  | cons q rest ih =>
    obtain ⟨k, x⟩ := q
    simp only [List.map_cons, List.nodup_cons] at hnd
    rcases List.mem_cons.mp hp with rfl | hmem
    · simp [lookupKey]
    · have hne : k ≠ p.1 := by
        intro hk
        exact hnd.1 (hk ▸ List.mem_map.mpr ⟨p, hmem, rfl⟩)
      simp [lookupKey, hne, ih hnd.2 hmem]

theorem deepEqualEntries_iff {F : Type} (lvs : List (String × JSONValue F)) :
    ∀ kvs : List (String × JSONValue F),
      DeepEqualEntries kvs lvs ↔
        ∀ p ∈ kvs, ∃ y, lookupKey p.1 lvs = some y ∧ DeepEqual p.2 y
  | [] => by simp [DeepEqualEntries]
  | (k, x) :: kvs => by
    rw [DeepEqualEntries, deepEqualEntries_iff lvs kvs]
    simp

theorem mem_sortKeysEntries {F : Type} :
    ∀ (kvs : List (String × JSONValue F)) (p : String × JSONValue F),
      p ∈ sortKeysEntries kvs → ∃ q ∈ kvs, p = (q.1, q.2.sortKeys)
  | [], p, h => by simp [sortKeysEntries] at h
  | (k, x) :: kvs, p, h => by
    simp only [sortKeysEntries, List.mem_cons] at h
    rcases h with rfl | h
    · exact ⟨(k, x), List.mem_cons_self _ _, rfl⟩
    · obtain ⟨q, hq, rfl⟩ := mem_sortKeysEntries kvs p h
      exact ⟨q, List.mem_cons_of_mem _ hq, rfl⟩

mutual
theorem deepEqual_sortKeys {F : Type} :
    ∀ v : JSONValue F, v.distinctKeys → DeepEqual v.sortKeys v
  | .null, _ => by simp [JSONValue.sortKeys, DeepEqual]
  | .bool _, _ => by simp [JSONValue.sortKeys, DeepEqual]
  | .number _, _ => by simp [JSONValue.sortKeys, DeepEqual]
  | .string _, _ => by simp [JSONValue.sortKeys, DeepEqual]
  | .array xs, hd => by
    simp only [JSONValue.distinctKeys] at hd
    rw [JSONValue.sortKeys, DeepEqual]
    exact ⟨xs, rfl, deepEqualElems_sortKeys xs hd⟩
  | .object kvs, hd => by
    simp only [JSONValue.distinctKeys] at hd
    rw [JSONValue.sortKeys, DeepEqual]
    refine ⟨kvs, rfl, ?_, ?_⟩
    · rw [(sortByKey_perm _).length_eq]
      have h := congrArg List.length (sortKeysEntries_keys kvs)
      simpa using h
    · rw [deepEqualEntries_iff]
      intro p hp
      have hp2 := (sortByKey_perm _).mem_iff.mp hp
      obtain ⟨q, hq, rfl⟩ := mem_sortKeysEntries kvs p hp2
      exact ⟨q.2, lookupKey_of_mem_nodup kvs hd.1 q hq,
        deepEqualEntries_sortKeys kvs hd.2 q hq⟩
theorem deepEqualElems_sortKeys {F : Type} :
    ∀ xs : List (JSONValue F), distinctKeysElems xs → DeepEqualElems (sortKeysElems xs) xs
  | [], _ => by simp [sortKeysElems, DeepEqualElems]
  | x :: xs, hd => by
    simp only [distinctKeysElems] at hd
    rw [sortKeysElems, DeepEqualElems]
    exact ⟨x, xs, rfl, deepEqual_sortKeys x hd.1, deepEqualElems_sortKeys xs hd.2⟩
theorem deepEqualEntries_sortKeys {F : Type} :
    ∀ kvs : List (String × JSONValue F), distinctKeysEntries kvs →
      ∀ q ∈ kvs, DeepEqual q.2.sortKeys q.2
  | [], _, q, hq => by cases hq
  | (k, x) :: kvs, hd, q, hq => by
    simp only [distinctKeysEntries] at hd
    rcases List.mem_cons.mp hq with rfl | hmem
    · exact deepEqual_sortKeys x hd.1
    · exact deepEqualEntries_sortKeys kvs hd.2 q hmem
end

theorem digitChar_decimal (k : Nat) (h : k < 10) :
    (Nat.digitChar k).isDigit = true ∧ (Nat.digitChar k).toNat - 48 = k := by
  interval_cases k <;> exact ⟨by decide, by decide⟩

theorem parseDecimal_foldl (cs : List Char) (hall : ∀ c ∈ cs, c.isDigit = true) :
    ∀ n : Nat,
      cs.foldl
        (fun acc c =>
          match acc with
          | none => none
          | some n => if c.isDigit then some (10 * n + (c.toNat - 48)) else none)
        (some n)
      = some (cs.foldl (fun n c => 10 * n + (c.toNat - 48)) n) := by
  induction cs with
  | nil => intro n; rfl
  | cons c rest ih =>
    intro n
    have hc := hall c (List.mem_cons_self _ _)
    simp only [List.foldl_cons, hc, if_true]
    exact ih (fun d hd => hall d (List.mem_cons_of_mem _ hd)) _

theorem parseDecimal_digits (cs : List Char) (hne : cs ≠ [])
    (hall : ∀ c ∈ cs, c.isDigit = true) : parseDecimal cs = some (decimalValue cs) := by
  unfold parseDecimal decimalValue
  have h : cs.isEmpty = false := by
    cases cs with
    | nil => exact absurd rfl hne
    | cons _ _ => rfl
  simp only [h, Bool.false_eq_true, if_false]
  exact parseDecimal_foldl cs hall 0

theorem toDigitsCore_decimal (fuel : Nat) :
    ∀ (n : Nat) (acc : List Char), n < fuel →
      ∃ ds, Nat.toDigitsCore 10 fuel n acc = ds ++ acc ∧ ds ≠ []
        ∧ (∀ c ∈ ds, c.isDigit = true) ∧ decimalValue ds = n := by
  induction fuel with
  | zero => intro n acc h; omega
  | succ fuel ih =>
    intro n acc h
    have hd := digitChar_decimal (n % 10) (Nat.mod_lt _ (by omega))
    by_cases h0 : n / 10 = 0
    · refine ⟨[Nat.digitChar (n % 10)], by simp [Nat.toDigitsCore, h0], by simp, ?_, ?_⟩
      · intro c hc
        simp only [List.mem_singleton] at hc
        rw [hc]; exact hd.1
      · simp only [decimalValue, List.foldl_cons, List.foldl_nil, hd.2]
        omega
    · obtain ⟨ds, h1, _, h3, h4⟩ := ih (n / 10) (Nat.digitChar (n % 10) :: acc) (by omega)
      refine ⟨ds ++ [Nat.digitChar (n % 10)], by simp [Nat.toDigitsCore, h0, h1], by simp, ?_, ?_⟩
      · intro c hc
        rcases List.mem_append.mp hc with hc | hc
        · exact h3 c hc
        · simp only [List.mem_singleton] at hc
          rw [hc]; exact hd.1
      · unfold decimalValue at h4 ⊢
        simp only [List.foldl_append, List.foldl_cons, List.foldl_nil, h4, hd.2]
        omega

theorem toDigits_decimal (n : Nat) :
    Nat.toDigits 10 n ≠ [] ∧ (∀ c ∈ Nat.toDigits 10 n, c.isDigit = true)
      ∧ parseDecimal (Nat.toDigits 10 n) = some n := by
  obtain ⟨ds, h1, h2, h3, h4⟩ := toDigitsCore_decimal (n + 1) n [] (by omega)
  rw [List.append_nil] at h1
  unfold Nat.toDigits
  rw [h1]
  exact ⟨h2, h3, by rw [parseDecimal_digits ds h2 h3, h4]⟩

theorem isDigit_isNumberChar (c : Char) (h : c.isDigit = true) : isNumberChar c = true := by
  simp [isNumberChar, h]

theorem sampleLib_codec (x : Int) (text : String) (h : sampleLib.formatFloat x = some text) :
    NumberText text ∧ sampleLib.parseFloat text = some x := by
  simp only [sampleLib, Option.some.injEq] at h
  subst h
  cases x with
  | ofNat m =>
    obtain ⟨h1, h2, h3⟩ := toDigits_decimal m
    have hdata : (toString (Int.ofNat m)).data = Nat.toDigits 10 m := rfl
    refine ⟨⟨by rw [hdata]; exact h1, fun c hc => ?_⟩, ?_⟩
    · rw [hdata] at hc
      exact isDigit_isNumberChar c (h2 c hc)
    · show parseInteger (toString (Int.ofNat m)) = some (Int.ofNat m)
      unfold parseInteger
      rw [hdata]
      split
      · rename_i cs heq
        have hm := h2 '-' (by rw [heq]; exact List.mem_cons_self _ _)
        exact absurd hm (by decide)
      · simp [h3]
  | negSucc m =>
    obtain ⟨h1, h2, h3⟩ := toDigits_decimal (m + 1)
    have hdata : (toString (Int.negSucc m)).data = '-' :: Nat.toDigits 10 (m + 1) := rfl
    refine ⟨⟨by rw [hdata]; simp, fun c hc => ?_⟩, ?_⟩
    · rw [hdata] at hc
      rcases List.mem_cons.mp hc with rfl | hc
      · decide
      · exact isDigit_isNumberChar c (h2 c hc)
    · show parseInteger (toString (Int.negSucc m)) = some (Int.negSucc m)
      unfold parseInteger
      rw [hdata]
      simp only [h3, Option.map_some']
      rfl

/-- C5: for a request record whose body is an array or a mapping, with finite numbers
and with maps as Go holds them (distinct keys), in a library whose number rendering is
read back by its number parsing: the body is marshalled without error, so that
`createHTTPRequest` succeeds whenever the path and the method pass; the marshalled
bytes are the body of the request; and these bytes unmarshal, as JSON, to a value that
is deeply equal to the body of the record. -/
theorem structured_body_round_trip {F U : Type} (lib : StdLib F U) (req : Request F)
    (hcodec : ∀ x text, lib.formatFloat x = some text →
      NumberText text ∧ lib.parseFloat text = some x)
    (hstruct : req.Body.isStructured = true)
    (hfinite : req.Body.finite lib.formatFloat = true)
    (hkeys : req.Body.distinctKeys) :
    ∃ bodyBytes decoded,
      Marshal lib.formatFloat req.Body = .ok bodyBytes
      ∧ (∀ parsedURL u, lib.urlParse req.Path = .ok parsedURL →
          validMethod (if req.Method = "" then "GET" else req.Method) = true →
          lib.urlParse (lib.urlString parsedURL) = .ok u →
          ∃ httpReq, createHTTPRequest lib req = .ok httpReq)
      ∧ (∀ httpReq, createHTTPRequest lib req = .ok httpReq → httpReq.Body = some bodyBytes)
      ∧ Unmarshal lib.parseFloat bodyBytes = .ok decoded
      ∧ DeepEqual decoded req.Body := by
  obtain ⟨bodyBytes, hm⟩ := Marshal_ok_of_finite lib.formatFloat req.Body hfinite
  have hnil : req.Body.isNil = false := by
    cases hb : req.Body <;> simp [hb, JSONValue.isStructured, JSONValue.isNil] at hstruct ⊢
  have hreader : bodyReader lib.formatFloat req.Body = some (some bodyBytes) := by
    simp [bodyReader, hnil, hm]
  refine ⟨bodyBytes, req.Body.sortKeys, hm, ?_, ?_,
    Unmarshal_Marshal lib.formatFloat lib.parseFloat hcodec req.Body bodyBytes hm hkeys,
    deepEqual_sortKeys req.Body hkeys⟩
  · intro parsedURL u hp hv hu
    exact ⟨_, (createHTTPRequest_eq_ok lib req _).mpr
      ⟨parsedURL, some bodyBytes, u, hp, hreader, hv, hu, rfl⟩⟩
  · intro httpReq h
    obtain ⟨_, body, _, _, hb, _, _, rfl⟩ := (createHTTPRequest_eq_ok lib req httpReq).mp h
    rw [hreader] at hb
    simp only [Option.some.injEq] at hb
    exact hb.symm

/-- Witness of C5: a request that posts a mapping holding a string, a number, `null`, a
boolean and a nested array. -/
theorem structured_body_round_trip_witness :
    postEntry.Request.Body.isStructured = true
    ∧ postEntry.Request.Body.finite sampleLib.formatFloat = true
    ∧ ∃ bodyBytes decoded,
        Marshal sampleLib.formatFloat postEntry.Request.Body = .ok bodyBytes
        ∧ Unmarshal sampleLib.parseFloat bodyBytes = .ok decoded
        ∧ DeepEqual decoded postEntry.Request.Body := by
  obtain ⟨bodyBytes, decoded, h1, _, _, h4, h5⟩ :=
    structured_body_round_trip sampleLib postEntry.Request sampleLib_codec (by decide)
      (by decide)
      (by simp [postEntry, JSONValue.distinctKeys, distinctKeysEntries, distinctKeysElems])
  exact ⟨by decide, by decide, bodyBytes, decoded, h1, h4, h5⟩

end CfOpenapi
